import Mathlib

/-!
Verification of the better-styled variant-resolution and props-merging engine.

The definitions below are a shallow embedding of the TypeScript source:
  * packages/lib/src/utils/merge.ts   (mergeStyles, composeFunctions, mergeFinalProps)
  * packages/lib/src/utils/variants   (matchesCompoundConditions, resolveVariantProps,
                                       resolveCompoundVariantProps)
  * packages/lib/src/styled           (the two `styled` factory implementations)
  * packages/lib/src/utils/cn.ts      (cn — a thin wrapper over the external
                                       clsx/tailwind-merge libraries)

JavaScript runtime values are modelled by the inductive `PVal`; JS objects are
ordered association lists with unique keys (JS property insertion order), and
`objSet` mirrors `obj[k] = v` (update in place, else append).
-/

set_option maxHeartbeats 1000000

namespace BetterStyled

/-- Symbolic representation of a JS function value.  `atom n` is a caller
supplied function (identified by a tag); `noop` is the `() => undefined`
closure created by `composeFunctions` for an empty input; `comp gs` is the
closure created by `composeFunctions` for two or more callables, which calls
each of `gs` in order with the same arguments and returns the last result. -/
inductive FnRep where
  | atom (n : Nat)
  | noop
  | comp (gs : List FnRep)
deriving Repr

/-- Opaque payload values stored inside plain style maps.  The merge
algorithms never inspect these fields; they are only copied. -/
inductive PBase where
  | s (v : String)
  | i (v : Int)
  | b (v : Bool)
deriving DecidableEq, Repr

/-- JS runtime values as far as the engine observes them:  `undef`/`null`,
primitives, function values, arrays (style inputs may be nested arrays),
plain objects (string-keyed enumerable data properties, `Object.prototype`),
and `exotic` for every non-plain object (symbol keys, accessors, a
`_requiresAnimatedComponent` marker, or a foreign prototype), identified by a
tag so that reference identity is observable. -/
inductive PVal where
  | undef
  | null
  | boolV (v : Bool)
  | numV (v : Int)
  | strV (v : String)
  | fnV (g : FnRep)
  | arr (xs : List PVal)
  | pobj (m : List (String × PBase))
  | exotic (tag : Nat)
deriving Repr

mutual

/-- Structural equality on function representations (used only in proofs and
decidable statements; the engine itself never compares functions). -/
def FnRep.beq : FnRep → FnRep → Bool
  | .atom n, .atom m => n == m
  | .noop, .noop => true
  | .comp gs, .comp hs => FnRep.beqList gs hs
  | _, _ => false

def FnRep.beqList : List FnRep → List FnRep → Bool
  | [], [] => true
  | g :: gs, h :: hs => FnRep.beq g h && FnRep.beqList gs hs
  | _, _ => false

end

mutual

theorem FnRep.eq_of_beqFn : ∀ (a b : FnRep), FnRep.beq a b = true → a = b
  | .atom n, .atom m, h => by
      simp only [FnRep.beq, beq_iff_eq] at h; exact h ▸ rfl
  | .noop, .noop, _ => rfl
  | .comp gs, .comp hs, h => by
      simp only [FnRep.beq] at h
      exact congrArg FnRep.comp (FnRep.eqList_of_beqListFn gs hs h)

theorem FnRep.eqList_of_beqListFn :
    ∀ (a b : List FnRep), FnRep.beqList a b = true → a = b
  | [], [], _ => rfl
  | g :: gs, h :: hs, hb => by
      simp only [FnRep.beqList, Bool.and_eq_true] at hb
      rw [FnRep.eq_of_beqFn g h hb.1, FnRep.eqList_of_beqListFn gs hs hb.2]

end

mutual

theorem FnRep.beqFn_refl : ∀ (a : FnRep), FnRep.beq a a = true
  | .atom n => by simp [FnRep.beq]
  | .noop => rfl
  | .comp gs => by simp only [FnRep.beq]; exact FnRep.beqListFn_refl gs

theorem FnRep.beqListFn_refl : ∀ (a : List FnRep), FnRep.beqList a a = true
  | [] => rfl
  | g :: gs => by
      simp only [FnRep.beqList, Bool.and_eq_true]
      exact ⟨FnRep.beqFn_refl g, FnRep.beqListFn_refl gs⟩

end

instance : DecidableEq FnRep := fun a b =>
  decidable_of_iff (FnRep.beq a b = true)
    ⟨FnRep.eq_of_beqFn a b, fun h => h ▸ FnRep.beqFn_refl a⟩

mutual

/-- Structural equality on `PVal`.  This models JS strict equality on the
primitive values the engine actually compares; `exotic` tags model reference
identity of non-plain objects. -/
def PVal.beq : PVal → PVal → Bool
  | .undef, .undef => true
  | .null, .null => true
  | .boolV a, .boolV b => a == b
  | .numV a, .numV b => a == b
  | .strV a, .strV b => a == b
  | .fnV g, .fnV h => FnRep.beq g h
  | .arr xs, .arr ys => PVal.beqList xs ys
  | .pobj m, .pobj m2 => m == m2
  | .exotic a, .exotic b => a == b
  | _, _ => false

def PVal.beqList : List PVal → List PVal → Bool
  | [], [] => true
  | x :: xs, y :: ys => PVal.beq x y && PVal.beqList xs ys
  | _, _ => false

end

mutual

theorem PVal.eq_of_beq : ∀ (a b : PVal), PVal.beq a b = true → a = b
  | .undef, .undef, _ => rfl
  | .null, .null, _ => rfl
  | .boolV a, .boolV b, h => by
      simp only [PVal.beq, beq_iff_eq] at h; exact h ▸ rfl
  | .numV a, .numV b, h => by
      simp only [PVal.beq, beq_iff_eq] at h; exact h ▸ rfl
  | .strV a, .strV b, h => by
      simp only [PVal.beq, beq_iff_eq] at h; exact h ▸ rfl
  | .fnV g, .fnV h2, h => by
      simp only [PVal.beq] at h
      exact congrArg PVal.fnV (FnRep.eq_of_beqFn g h2 h)
  | .arr xs, .arr ys, h => by
      simp only [PVal.beq] at h
      exact congrArg PVal.arr (PVal.eqList_of_beqList xs ys h)
  | .pobj m, .pobj m2, h => by
      simp only [PVal.beq, beq_iff_eq] at h; exact h ▸ rfl
  | .exotic a, .exotic b, h => by
      simp only [PVal.beq, beq_iff_eq] at h; exact h ▸ rfl

theorem PVal.eqList_of_beqList :
    ∀ (a b : List PVal), PVal.beqList a b = true → a = b
  | [], [], _ => rfl
  | x :: xs, y :: ys, hb => by
      simp only [PVal.beqList, Bool.and_eq_true] at hb
      rw [PVal.eq_of_beq x y hb.1, PVal.eqList_of_beqList xs ys hb.2]

end

mutual

theorem PVal.beq_refl : ∀ (a : PVal), PVal.beq a a = true
  | .undef => rfl
  | .null => rfl
  | .boolV a => by simp [PVal.beq]
  | .numV a => by simp [PVal.beq]
  | .strV a => by simp [PVal.beq]
  | .fnV g => by simp only [PVal.beq]; exact FnRep.beqFn_refl g
  | .arr xs => by simp only [PVal.beq]; exact PVal.beqList_refl xs
  | .pobj m => by simp [PVal.beq]
  | .exotic a => by simp [PVal.beq]

theorem PVal.beqList_refl : ∀ (a : List PVal), PVal.beqList a a = true
  | [] => rfl
  | x :: xs => by
      simp only [PVal.beqList, Bool.and_eq_true]
      exact ⟨PVal.beq_refl x, PVal.beqList_refl xs⟩

end

instance : DecidableEq PVal := fun a b =>
  decidable_of_iff (PVal.beq a b = true)
    ⟨PVal.eq_of_beq a b, fun h => h ▸ PVal.beq_refl a⟩

/-- A props fragment: a JS object mapping prop names to values, in property
insertion order. -/
abbrev Frag := List (String × PVal)

/-- JS truthiness test. -/
def PVal.truthy : PVal → Bool
  | .undef => false
  | .null => false
  | .boolV v => v
  | .numV v => v != 0
  | .strV v => v ≠ ""
  | .fnV _ => true
  | .arr _ => true
  | .pobj _ => true
  | .exotic _ => true

/-- `typeof v === "function"` : extract the function representation. -/
def PVal.asFn : PVal → Option FnRep
  | .fnV g => some g
  | _ => none

/-- JS property update `obj[k] = v`: overwrite in place when the key exists
(keeping its position), otherwise append. -/
def objSet : List (String × α) → String → α → List (String × α)
  | [], k, v => [(k, v)]
  | p :: rest, k, v => if p.1 = k then (k, v) :: rest else p :: objSet rest k v

/-- JS object spread `{...base, ...overlay}`. -/
def objSpread (base overlay : List (String × α)) : List (String × α) :=
  overlay.foldl (fun acc p => objSet acc p.1 p.2) base

/-- JS property read `obj[k]`: `undefined` when the key is absent. -/
def jsGet (m : List (String × PVal)) (k : String) : PVal :=
  (m.lookup k).getD PVal.undef

/-! ## merge.ts : mergeStyles -/

/-- `isMergeableStyleObject` from merge.ts: a plain object (prototype
`Object.prototype` or `null`), without the `_requiresAnimatedComponent`
marker, whose own keys are all enumerable string data properties.  In the
model `pobj` satisfies the three checks by construction and every other
non-plain object is an `exotic`; primitives, functions and arrays fail
`isPlainObject`. -/
def isMergeableStyle : PVal → Bool
  | .pobj _ => true
  | _ => false

mutual

/-- `flattenStyleInput` from merge.ts: recursively flatten nested arrays and
drop `undefined` / `null` / `false`.  The source pushes into an accumulator;
the model returns the pushed elements in order. -/
def flattenStyleInput : PVal → List PVal
  | .undef => []
  | .null => []
  | .boolV false => []
  | .arr xs => flattenStyleList xs
  | v => [v]

def flattenStyleList : List PVal → List PVal
  | [] => []
  | x :: xs => flattenStyleInput x ++ flattenStyleList xs

end

/-- `Object.assign({}, ...maps)`: copy each map's entries in order into a
fresh object. -/
def objAssign (ms : List (List (String × PBase))) : List (String × PBase) :=
  ms.foldl (fun acc m => m.foldl (fun a p => objSet a p.1 p.2) acc) []

/-- Extract the underlying map of a plain style object. -/
def PVal.pobjMap : PVal → List (String × PBase)
  | .pobj m => m
  | _ => []

/-- `mergeStyles` from merge.ts.  Flatten the inputs; an empty result is
`undefined`, a single element is returned as-is (identity preserved), two or
more all-plain elements are shallow-merged via `Object.assign` (`undefined`
when the merged object has no keys), and any non-plain element forces the
full flattened list to be returned unmerged.  The source's `try/catch`
around `Object.assign` cannot fire in the model: assignment over plain data
maps is total. -/
def mergeStyles (styles : List PVal) : Option PVal :=
  match flattenStyleList styles with
  | [] => none
  | [x] => some x
  | fl =>
    if fl.all isMergeableStyle then
      if (objAssign (fl.map PVal.pobjMap)).isEmpty then none
      else some (.pobj (objAssign (fl.map PVal.pobjMap)))
    else
      some (.arr fl)

/-! ## merge.ts : composeFunctions and the semantics of function values -/

/-- `composeFunctions` from merge.ts: filter the inputs to the callable
ones; zero callables yield the `() => undefined` closure, one callable is
returned unchanged, two or more are wrapped in a closure calling each in
order. -/
def composeFunctions (vals : List PVal) : FnRep :=
  match vals.filterMap PVal.asFn with
  | [] => .noop
  | [f] => f
  | fs => .comp fs

/-- An environment giving semantics to caller-supplied functions: `env n`
runs atom `n` on a world state and an argument list, returning the new state
and a return value. -/
abbrev FnEnv (σ : Type) := Nat → σ → List PVal → σ × PVal

mutual

/-- Run a function value: an atom defers to the environment, `noop` returns
`undefined` without touching the state, and `comp gs` calls every `g` in
order with the same arguments, returning the last result (the `let result;
for (const fn of validFunctions) result = fn(...args); return result`
closure from the source). -/
def FnRep.run (env : FnEnv σ) : FnRep → σ → List PVal → σ × PVal
  | .atom n, s, args => env n s args
  | .noop, s, _ => (s, .undef)
  | .comp gs, s, args => FnRep.runSeq env gs s args

def FnRep.runSeq (env : FnEnv σ) : List FnRep → σ → List PVal → σ × PVal
  | [], s, _ => (s, .undef)
  | [g], s, args => FnRep.run env g s args
  | g :: g2 :: gs, s, args =>
    let t := FnRep.run env g s args
    FnRep.runSeq env (g2 :: gs) t.1 args

end

/-! ## cn.ts : the external class-name merger

Modelled from the spec: `cn` wraps the external `clsx` and `tailwind-merge`
libraries (not part of this repository), whose contract at the boundary is
"concatenate the class strings; for conflicting utility tokens the last one
wins, non-conflicting tokens are kept in order; an empty result becomes
`undefined`".  The conflict relation is abstracted by a grouping function
`grp` (two tokens conflict when they have the same group); every theorem
below holds for every `grp`. -/

/-- Split one class string into its whitespace-separated tokens (working on
the underlying character list). -/
def splitTokens (s : String) : List String :=
  ((s.data.splitOn ' ').filter (fun t => t ≠ [])).map (fun l => String.mk l)

/-- Join tokens with single spaces (the string produced by clsx). -/
def joinTokens (ts : List String) : String :=
  String.mk ([' '].intercalate (ts.map String.data))

/-- All tokens of all input strings, in order. -/
def classTokens (inputs : List String) : List String :=
  inputs.flatMap splitTokens

/-- Keep only the last token of each conflict group, preserving the order of
the survivors. -/
def keepLast (grp : String → String) : List String → List String
  | [] => []
  | t :: ts =>
    if ts.any (fun u => grp u = grp t) then keepLast grp ts
    else t :: keepLast grp ts

/-- The cn function: merge class strings, `undefined` when the result is
empty (`result || undefined` in the source). -/
def cn (grp : String → String) (inputs : List String) : Option String :=
  match keepLast grp (classTokens inputs) with
  | [] => none
  | ts => some (joinTokens ts)

/-! ## merge.ts : mergeFinalProps -/

/-- Append a function to the per-key composition list
(`functionsToCompose[key].push(value)`, creating the list on first use). -/
def fnsAppend : List (String × List FnRep) → String → FnRep →
    List (String × List FnRep)
  | [], k, g => [(k, [g])]
  | p :: rest, k, g =>
    if p.1 = k then (p.1, p.2 ++ [g]) :: rest else p :: fnsAppend rest k g

/-- The accumulators of `mergeFinalProps`'s main loop. -/
structure MergeState where
  finalProps : Frag
  allStyles : List PVal
  allClassNames : List String
  fnsToCompose : List (String × List FnRep)
deriving Repr

def MergeState.init : MergeState := ⟨[], [], [], []⟩

/-- One iteration of the `mergeFinalProps` loop body on a key/value pair:
skip `undefined`; route truthy `style` values, string `className` values and
function values to their accumulators; everything else is last-write-wins
into `finalProps`. -/
def mergeStep (st : MergeState) (kv : String × PVal) : MergeState :=
  if kv.2 = .undef then st
  else if kv.1 = "style" ∧ kv.2.truthy then
    { st with allStyles := st.allStyles ++ [kv.2] }
  else
    match kv.2 with
    | .strV s =>
      if kv.1 = "className" then
        { st with allClassNames := st.allClassNames ++ [s] }
      else
        { st with finalProps := objSet st.finalProps kv.1 (.strV s) }
    | .fnV g =>
      { st with fnsToCompose := fnsAppend st.fnsToCompose kv.1 g }
    | v =>
      { st with finalProps := objSet st.finalProps kv.1 v }

/-- Process one source fragment (`for (const [key, value] of
Object.entries(source))`). -/
def mergeFrag (st : MergeState) (f : Frag) : MergeState :=
  f.foldl mergeStep st

/-- The `if (mergedStyle !== undefined) finalProps.style = mergedStyle` step
of `mergeFinalProps`. -/
def styleWritten (st : MergeState) : Frag :=
  match mergeStyles st.allStyles with
  | some v => objSet st.finalProps "style" v
  | none => st.finalProps

/-- The `if (mergedClassName) finalProps.className = mergedClassName` step of
`mergeFinalProps` (cn already returns `undefined` for an empty result). -/
def classWritten (grp : String → String) (st : MergeState) : Frag :=
  match cn grp st.allClassNames with
  | some s => objSet (styleWritten st) "className" (.strV s)
  | none => styleWritten st

/-- The finishing phase of `mergeFinalProps`: write the merged style (when
defined), the merged class name (when truthy), and the composed function for
every key with accumulated callables. -/
def mergeFinish (grp : String → String) (st : MergeState) : Frag :=
  st.fnsToCompose.foldl
    (fun acc p => objSet acc p.1 (.fnV (composeFunctions (p.2.map PVal.fnV))))
    (classWritten grp st)

/-- `mergeFinalProps` from merge.ts: fold the loop over the sources
(`undefined` sources are skipped by `if (!source) continue`), then finish. -/
def mergeFinalProps (grp : String → String) (propSources : List (Option Frag)) :
    Frag :=
  mergeFinish grp
    (propSources.foldl
      (fun st s => match s with
        | none => st
        | some f => mergeFrag st f)
      MergeState.init)

/-! ## variants.ts : resolveVariantProps / resolveCompoundVariantProps -/

mutual

/-- JS property-key coercion of a variant value, after the source's explicit
`typeof variantValue === "boolean" ? String(variantValue) : variantValue`
normalisation: strings index directly, booleans by `"true"`/`"false"`, other
primitives via JS `ToString`; for the object-valued tokens the typed API
rules out, the coercion mirrors `Array.prototype.toString` (elements joined
by commas with `null`/`undefined` empty) and `Object.prototype.toString`. -/
def PVal.asPropertyKey : PVal → String
  | .strV s => s
  | .boolV true => "true"
  | .boolV false => "false"
  | .numV n => toString n
  | .undef => "undefined"
  | .null => "null"
  | .arr xs => PVal.asPropertyKeyList xs
  | .pobj _ => "[object Object]"
  | .exotic _ => "[object Object]"
  | .fnV _ => "function"

def PVal.asPropertyKeyList : List PVal → String
  | [] => ""
  | [x] =>
    match x with
    | .undef => ""
    | .null => ""
    | x => PVal.asPropertyKey x
  | x :: xs =>
    (match x with
      | .undef => ""
      | .null => ""
      | x => PVal.asPropertyKey x) ++ "," ++ PVal.asPropertyKeyList xs

end

/-- A variant table: axis name → value token → props fragment, in
declaration order (`VariantsConfig`). -/
abbrev VariantsConfig := List (String × List (String × Frag))

/-- The per-render active selections map (`ActiveVariants`). -/
abbrev ActiveVariants := List (String × PVal)

/-- `resolveVariantProps` from the variants module: for every entry of
`activeVariants` in iteration order, look up the axis in the table and the
fragment by the (boolean-normalised) value token; missing axes and missing
tokens contribute nothing (`if (!variantConfig) continue` and the
`if (propsForVariant)` truthiness guard — a found fragment is an object and
hence truthy); merge the collected fragments with `mergeFinalProps`. -/
def resolveVariantProps (grp : String → String) (variants : Option VariantsConfig)
    (activeVariants : ActiveVariants) : Frag :=
  match variants with
  | none => []
  | some vs =>
    let allVariantProps := activeVariants.filterMap
      (fun kv => (vs.lookup kv.1).bind (fun cfg => cfg.lookup kv.2.asPropertyKey))
    mergeFinalProps grp (allVariantProps.map some)

/-- A compound rule after the source's `const { props, ...conditions } =
compound` destructuring: the condition entries (which may carry an explicit
`undefined`) and the contributed props fragment. -/
structure CompoundRule where
  conditions : List (String × PVal)
  props : Frag
deriving Repr

/-- `matchesCompoundConditions` from the variants module: every condition
key must satisfy `activeVariants[key] !== value` being false, i.e. the
(possibly `undefined`) property read must be strictly equal to the declared
condition value. -/
def matchesCompoundConditions (conditions : List (String × PVal))
    (activeVariants : ActiveVariants) : Bool :=
  conditions.all (fun kv => jsGet activeVariants kv.1 = kv.2)

/-- `resolveCompoundVariantProps` from the variants module: collect, in
declaration order, the `props` of every rule whose conditions all match,
and merge them with `mergeFinalProps`. -/
def resolveCompoundVariantProps (grp : String → String)
    (compoundVariants : Option (List CompoundRule))
    (activeVariants : ActiveVariants) : Frag :=
  match compoundVariants with
  | none => []
  | some [] => []
  | some cs =>
    let matchingProps := (cs.filter
      (fun c => matchesCompoundConditions c.conditions activeVariants)).map
      CompoundRule.props
    mergeFinalProps grp (matchingProps.map some)

/-! ## styled : the component factory (both implementations) -/

/-- The runtime payload of a styled context (`createStyledContext`): the
axis names of its schema (`Object.keys(context.variantKeys)`).  The ambient
value read by `useVariants()` is supplied per render. -/
structure StyledCtx where
  schemaKeys : List String
deriving Repr

/-- The configuration captured by `styled(component, config)`. -/
structure StyledConfig where
  context : Option StyledCtx
  base : Option Frag
  variants : Option VariantsConfig
  defaultVariants : Option (List (String × PVal))
  compoundVariants : Option (List CompoundRule)

/-- `new Set(Object.keys(variants))` (empty when `variants` is absent). -/
def StyledConfig.variantKeys (cfg : StyledConfig) : List String :=
  (cfg.variants.getD []).map Prod.fst

/-- `context?.useVariants() ?? {}`: without a bound context, or with a bound
context but no enclosing provider (`useVariants()` returns `null`), the
ambient map is empty. -/
def contextVariantsOf (cfg : StyledConfig)
    (ambient : Option ActiveVariants) : ActiveVariants :=
  match cfg.context with
  | none => []
  | some _ => ambient.getD []

/-- The prop-partitioning loop state: the active selections being built, the
direct-props bucket, and the `hasVariantProps` flag. -/
structure PartitionState where
  activeVariants : ActiveVariants
  directProps : Frag
  hasVariantProps : Bool
deriving Repr

/-- One iteration of the partitioning loop: a declared variant axis with a
non-`undefined` value overlays the active selections and marks the
component as having received a variant prop; everything else goes to the
direct-props bucket unchanged. -/
def partitionStep (variantKeys : List String) (st : PartitionState)
    (kv : String × PVal) : PartitionState :=
  if variantKeys.contains kv.1 ∧ kv.2 ≠ .undef then
    { st with activeVariants := objSet st.activeVariants kv.1 kv.2,
              hasVariantProps := true }
  else
    { st with directProps := objSet st.directProps kv.1 kv.2 }

/-- The whole per-render partitioning: seed the active selections as
`{...defaultVariants, ...contextVariants}`, then fold the loop over the
incoming props. -/
def partitionProps (cfg : StyledConfig) (ambient : Option ActiveVariants)
    (incomingProps : List (String × PVal)) : PartitionState :=
  incomingProps.foldl (partitionStep cfg.variantKeys)
    ⟨objSpread (cfg.defaultVariants.getD []) (contextVariantsOf cfg ambient),
     [], false⟩

/-- The final props handed to `createElement`, shared verbatim by both
implementations: `mergeFinalProps(base, variantResolvedProps,
compoundResolvedProps, directProps)`. -/
def finalPropsOf (grp : String → String) (cfg : StyledConfig)
    (st : PartitionState) : Frag :=
  mergeFinalProps grp
    [cfg.base,
     some (resolveVariantProps grp cfg.variants st.activeVariants),
     some (resolveCompoundVariantProps grp cfg.compoundVariants st.activeVariants),
     some st.directProps]

/-- The observable outcome of one render: the props of the created node, and
`some value` exactly when the node was wrapped in the context's provider
binding `value`. -/
structure RenderResult where
  finalProps : Frag
  provided : Option ActiveVariants
deriving Repr

/-- `defaultVariants && Object.keys(defaultVariants).length > 0`. -/
def StyledConfig.hasDefaults (cfg : StyledConfig) : Bool :=
  match cfg.defaultVariants with
  | none => false
  | some d => !d.isEmpty

/-- One render of the second (later) `styled` implementation
(withSlots.ts lines 696-797): wrap in the provider iff the component is
bound to a context and (received a variant prop or declares non-empty
defaults), providing the active selections filtered to the context's schema
keys. -/
def styledRender (grp : String → String) (cfg : StyledConfig)
    (ambient : Option ActiveVariants)
    (incomingProps : List (String × PVal)) : RenderResult :=
  let st := partitionProps cfg ambient incomingProps
  let finalProps := finalPropsOf grp cfg st
  match cfg.context with
  | some ctx =>
    if st.hasVariantProps || cfg.hasDefaults then
      ⟨finalProps,
       some (st.activeVariants.filter (fun kv => ctx.schemaKeys.contains kv.1))⟩
    else
      ⟨finalProps, none⟩
  | none => ⟨finalProps, none⟩

/-- One render of the first (earlier) `styled` implementation (withSlots.ts
lines 543-621): identical pipeline, but wraps iff a variant prop was
received (defaults play no role) and provides the unfiltered active
selections. -/
def styledRenderV1 (grp : String → String) (cfg : StyledConfig)
    (ambient : Option ActiveVariants)
    (incomingProps : List (String × PVal)) : RenderResult :=
  let st := partitionProps cfg ambient incomingProps
  let finalProps := finalPropsOf grp cfg st
  match cfg.context with
  | some _ =>
    if st.hasVariantProps then ⟨finalProps, some st.activeVariants⟩
    else ⟨finalProps, none⟩
  | none => ⟨finalProps, none⟩

/-! ## Basic lemmas about association-list lookup and the JS object model -/

theorem lookup_cons_eq {β : Type _} (k : String) (v : β) (rest : List (String × β)) :
    List.lookup k ((k, v) :: rest) = some v := by
  simp [List.lookup]

theorem lookup_cons_ne {β : Type _} {k k1 : String} (h : k ≠ k1) (v : β)
    (rest : List (String × β)) :
    List.lookup k ((k1, v) :: rest) = List.lookup k rest := by
  have hb : (k == k1) = false := by simp [h]
  simp [List.lookup, hb]

theorem lookup_append {β : Type _} (l1 l2 : List (String × β)) (k : String) :
    (l1 ++ l2).lookup k = (l1.lookup k).orElse (fun _ => l2.lookup k) := by
  induction l1 with
  | nil => simp [List.lookup]
  | cons p rest ih =>
    obtain ⟨a, b⟩ := p
    by_cases h : k = a
    · subst h; simp [lookup_cons_eq]
    · simp [lookup_cons_ne h, ih]

theorem lookup_eq_none_iff {β : Type _} (l : List (String × β)) (k : String) :
    l.lookup k = none ↔ k ∉ l.map Prod.fst := by
  induction l with
  | nil => simp [List.lookup]
  | cons p rest ih =>
    obtain ⟨a, b⟩ := p
    by_cases h : k = a
    · subst h; simp [lookup_cons_eq]
    · simp [lookup_cons_ne h, ih, h]

theorem lookup_objSet {β : Type _} (m : List (String × β)) (k k' : String) (v : β) :
    (objSet m k v).lookup k' = if k' = k then some v else m.lookup k' := by
  induction m with
  | nil =>
    by_cases hk : k' = k
    · subst hk; simp [objSet, lookup_cons_eq]
    · have hb : (k' == k) = false := by simp [hk]
      simp [objSet, List.lookup, hb, hk]
  | cons p rest ih =>
    obtain ⟨a, b⟩ := p
    by_cases ha : a = k
    · subst ha
      simp only [objSet, eq_self_iff_true, if_true]
      by_cases hk : k' = a
      · subst hk; simp [lookup_cons_eq]
      · rw [lookup_cons_ne hk, lookup_cons_ne hk, if_neg hk]
    · simp only [objSet, if_neg ha]
      by_cases hk : k' = a
      · subst hk
        have hne : k' ≠ k := ha
        rw [lookup_cons_eq, lookup_cons_eq, if_neg hne]
      · rw [lookup_cons_ne hk, lookup_cons_ne hk, ih]

theorem lookup_fnsAppend (m : List (String × List FnRep)) (k k' : String) (g : FnRep) :
    (fnsAppend m k g).lookup k' =
      if k' = k then some ((m.lookup k).getD [] ++ [g]) else m.lookup k' := by
  induction m with
  | nil =>
    by_cases hk : k' = k
    · subst hk; simp [fnsAppend, lookup_cons_eq]
    · have hb : (k' == k) = false := by simp [hk]
      simp [fnsAppend, List.lookup, hb, hk]
  | cons p rest ih =>
    obtain ⟨a, b⟩ := p
    by_cases ha : a = k
    · subst ha
      simp only [fnsAppend, eq_self_iff_true, if_true]
      by_cases hk : k' = a
      · subst hk; simp [lookup_cons_eq]
      · rw [lookup_cons_ne hk, lookup_cons_ne hk, if_neg hk]
    · simp only [fnsAppend, if_neg ha]
      by_cases hk : k' = a
      · subst hk
        have hne : k' ≠ k := ha
        rw [lookup_cons_eq, lookup_cons_eq, if_neg hne]
      · rw [lookup_cons_ne hk, ih]
        by_cases hkk : k' = k
        · subst hkk
          rw [if_pos rfl, if_pos rfl, lookup_cons_ne hk]
        · rw [if_neg hkk, if_neg hkk, lookup_cons_ne hk]

theorem keys_objSet {β : Type _} (m : List (String × β)) (k : String) (v : β) :
    (objSet m k v).map Prod.fst =
      if k ∈ m.map Prod.fst then m.map Prod.fst else m.map Prod.fst ++ [k] := by
  induction m with
  | nil => simp [objSet]
  | cons p rest ih =>
    obtain ⟨a, b⟩ := p
    by_cases ha : a = k
    · subst ha; simp [objSet]
    · have hka : k ≠ a := fun he => ha he.symm
      simp only [objSet, if_neg ha, List.map_cons, ih]
      by_cases hm : k ∈ rest.map Prod.fst <;> simp [hm, hka, Ne.symm hka]

theorem nodup_keys_objSet {β : Type _} (m : List (String × β)) (k : String) (v : β)
    (h : (m.map Prod.fst).Nodup) : ((objSet m k v).map Prod.fst).Nodup := by
  rw [keys_objSet]
  by_cases hm : k ∈ m.map Prod.fst
  · simpa [hm] using h
  · simp only [hm, if_false]
    simpa [List.nodup_append, hm] using h

theorem keys_fnsAppend (m : List (String × List FnRep)) (k : String) (g : FnRep) :
    (fnsAppend m k g).map Prod.fst =
      if k ∈ m.map Prod.fst then m.map Prod.fst else m.map Prod.fst ++ [k] := by
  induction m with
  | nil => simp [fnsAppend]
  | cons p rest ih =>
    obtain ⟨a, b⟩ := p
    by_cases ha : a = k
    · subst ha; simp [fnsAppend]
    · have hka : k ≠ a := fun he => ha he.symm
      simp only [fnsAppend, if_neg ha, List.map_cons, ih]
      by_cases hm : k ∈ rest.map Prod.fst <;> simp [hm, hka, Ne.symm hka]

theorem nodup_keys_fnsAppend (m : List (String × List FnRep)) (k : String) (g : FnRep)
    (h : (m.map Prod.fst).Nodup) : ((fnsAppend m k g).map Prod.fst).Nodup := by
  rw [keys_fnsAppend]
  by_cases hm : k ∈ m.map Prod.fst
  · simpa [hm] using h
  · simp only [hm, if_false]
    simpa [List.nodup_append, hm] using h

/-- The value looked up after a spread: the overlay's last binding for the
key wins, otherwise the base's binding survives. -/
theorem lookup_objSpread {β : Type _} (base overlay : List (String × β)) (k : String) :
    (objSpread base overlay).lookup k =
      (overlay.reverse.lookup k).orElse (fun _ => base.lookup k) := by
  induction overlay generalizing base with
  | nil => simp [objSpread, List.lookup]
  | cons p rest ih =>
    obtain ⟨a, b⟩ := p
    show (objSpread (objSet base a b) rest).lookup k = _
    rw [ih, List.reverse_cons, lookup_append, lookup_objSet]
    by_cases hk : k = a
    · subst hk
      cases rest.reverse.lookup k <;> simp [lookup_cons_eq, Option.orElse]
    · have h1 : List.lookup k [(a, b)] = none := by
        rw [lookup_cons_ne hk]; rfl
      rw [h1, if_neg hk]
      cases rest.reverse.lookup k <;> simp [Option.orElse]

/-- With duplicate-free keys a reversed lookup is the plain lookup. -/
theorem lookup_reverse_of_nodup {β : Type _} (l : List (String × β)) (k : String)
    (h : (l.map Prod.fst).Nodup) : l.reverse.lookup k = l.lookup k := by
  induction l with
  | nil => simp
  | cons p rest ih =>
    obtain ⟨a, b⟩ := p
    simp only [List.map_cons, List.nodup_cons] at h
    rw [List.reverse_cons, lookup_append, ih h.2]
    by_cases hk : k = a
    · subst hk
      have hnone : rest.lookup k = none := by
        rw [lookup_eq_none_iff]; exact h.1
      simp [hnone, lookup_cons_eq, Option.orElse]
    · rw [lookup_cons_ne hk, lookup_cons_ne hk]
      cases rest.lookup k <;> rfl

/-! ## A column-wise characterisation of the mergeFinalProps loop -/

/-- All entries processed by the `mergeFinalProps` loop, in order. -/
def mergeEntries (srcs : List (Option Frag)) : List (String × PVal) :=
  srcs.flatMap (fun s => s.getD [])

/-- The style value an entry pushes onto `allStyles`, if any. -/
def styleAdd (kv : String × PVal) : Option PVal :=
  if kv.2 = .undef then none
  else if kv.1 = "style" ∧ kv.2.truthy then some kv.2
  else none

/-- The class string an entry pushes onto `allClassNames`, if any. -/
def classAdd (kv : String × PVal) : Option String :=
  if kv.2 = .undef then none
  else if kv.1 = "style" ∧ kv.2.truthy then none
  else match kv.2 with
    | .strV s => if kv.1 = "className" then some s else none
    | _ => none

/-- The function an entry pushes onto `functionsToCompose[k]`, if any. -/
def fnAdd (k : String) (kv : String × PVal) : Option FnRep :=
  if kv.1 = k then
    if kv.2 = .undef then none
    else if kv.1 = "style" ∧ kv.2.truthy then none
    else match kv.2 with
      | .fnV g => some g
      | _ => none
  else none

/-- The value an entry writes directly into `finalProps[k]`, if any. -/
def propWrite (k : String) (kv : String × PVal) : Option PVal :=
  if kv.1 = k then
    if kv.2 = .undef then none
    else if kv.1 = "style" ∧ kv.2.truthy then none
    else match kv.2 with
      | .strV s => if kv.1 = "className" then none else some (.strV s)
      | .fnV _ => none
      | v => some v
  else none

theorem foldSrcs_eq_foldEntries (srcs : List (Option Frag)) (st : MergeState) :
    srcs.foldl
        (fun st s => match s with
          | none => st
          | some f => mergeFrag st f) st =
      (mergeEntries srcs).foldl mergeStep st := by
  induction srcs generalizing st with
  | nil => rfl
  | cons s rest ih =>
    cases s with
    | none => simpa [mergeEntries] using ih st
    | some f =>
      simp only [List.foldl_cons, mergeEntries, List.flatMap_cons, Option.getD_some,
        List.foldl_append]
      exact ih (mergeFrag st f)

theorem fold_allStyles (entries : List (String × PVal)) (st : MergeState) :
    (entries.foldl mergeStep st).allStyles =
      st.allStyles ++ entries.filterMap styleAdd := by
  induction entries generalizing st with
  | nil => simp
  | cons kv rest ih =>
    obtain ⟨a, v⟩ := kv
    simp only [List.foldl_cons, List.filterMap_cons]
    by_cases h1 : v = PVal.undef
    · simp [mergeStep, styleAdd, h1, ih]
    · by_cases h2 : a = "style" ∧ v.truthy
      · simp [mergeStep, styleAdd, h1, h2, ih]
      · cases v with
        | strV s =>
          by_cases h3 : a = "className" <;>
            simp [mergeStep, styleAdd, h1, h2, h3, ih]
        | fnV g => simp [mergeStep, styleAdd, h1, h2, ih]
        | undef => exact absurd rfl h1
        | null => simp [mergeStep, styleAdd, h1, h2, ih]
        | boolV b => simp [mergeStep, styleAdd, h1, h2, ih]
        | numV n => simp [mergeStep, styleAdd, h1, h2, ih]
        | arr xs => simp [mergeStep, styleAdd, h1, h2, ih]
        | pobj m => simp [mergeStep, styleAdd, h1, h2, ih]
        | exotic t => simp [mergeStep, styleAdd, h1, h2, ih]

theorem fold_allClassNames (entries : List (String × PVal)) (st : MergeState) :
    (entries.foldl mergeStep st).allClassNames =
      st.allClassNames ++ entries.filterMap classAdd := by
  induction entries generalizing st with
  | nil => simp
  | cons kv rest ih =>
    obtain ⟨a, v⟩ := kv
    simp only [List.foldl_cons, List.filterMap_cons]
    by_cases h1 : v = PVal.undef
    · simp [mergeStep, classAdd, h1, ih]
    · by_cases h2 : a = "style" ∧ v.truthy
      · simp [mergeStep, classAdd, h1, h2, ih]
      · cases v with
        | strV s =>
          by_cases h3 : a = "className" <;>
            simp [mergeStep, classAdd, h1, h2, h3, ih]
        | fnV g => simp [mergeStep, classAdd, h1, h2, ih]
        | undef => exact absurd rfl h1
        | null => simp [mergeStep, classAdd, h1, h2, ih]
        | boolV b => simp [mergeStep, classAdd, h1, h2, ih]
        | numV n => simp [mergeStep, classAdd, h1, h2, ih]
        | arr xs => simp [mergeStep, classAdd, h1, h2, ih]
        | pobj m => simp [mergeStep, classAdd, h1, h2, ih]
        | exotic t => simp [mergeStep, classAdd, h1, h2, ih]

theorem getLast?_cons_or {α : Type _} (w : α) (l : List α) (X : Option α) :
    ((w :: l).getLast?).or X = (l.getLast?).or (some w) := by
  induction l generalizing w X with
  | nil => simp
  | cons b bs ih =>
    rw [List.getLast?_cons_cons, ih b X, ih b (some w)]

theorem fold_finalProps_lookup (entries : List (String × PVal)) (st : MergeState)
    (k : String) :
    (entries.foldl mergeStep st).finalProps.lookup k =
      ((entries.filterMap (propWrite k)).getLast?).or (st.finalProps.lookup k) := by
  induction entries generalizing st with
  | nil => simp
  | cons kv rest ih =>
    obtain ⟨a, v⟩ := kv
    simp only [List.foldl_cons, List.filterMap_cons]
    by_cases h1 : v = PVal.undef
    · simp [mergeStep, propWrite, h1, ih]
    · by_cases h2 : a = "style" ∧ v.truthy
      · by_cases hk : a = k <;>
          simp [mergeStep, propWrite, h1, h2, hk, ih]
      · have hwrite : ∀ w : PVal,
            mergeStep st (a, w) =
              { st with finalProps := objSet st.finalProps a w } →
            propWrite k (a, w) = (if a = k then some w else none) →
            (rest.foldl mergeStep (mergeStep st (a, w))).finalProps.lookup k =
              ((List.filterMap (propWrite k) ((a, w) :: rest)).getLast?).or
                (st.finalProps.lookup k) := by
          intro w hstep hpw
          rw [hstep, ih, lookup_objSet, List.filterMap_cons, hpw]
          by_cases hk : a = k
          · subst hk
            simp [getLast?_cons_or]
          · have hk2 : ¬k = a := fun h => hk h.symm
            simp [hk, hk2]
        cases v with
        | strV s =>
          by_cases h3 : a = "className"
          · by_cases hk : a = k <;>
              simp [mergeStep, propWrite, h1, h2, h3, hk, ih]
          · have := hwrite (.strV s)
              (by simp [mergeStep, h1, h2, h3])
              (by simp [propWrite, h1, h2, h3])
            simpa [List.filterMap_cons] using this
        | fnV g =>
          by_cases hk : a = k
          · subst hk
            simp [mergeStep, propWrite, h1, h2, ih]
          · have hk2 : ¬k = a := fun h => hk h.symm
            simp [mergeStep, propWrite, h1, h2, hk, hk2, ih]
        | undef => exact absurd rfl h1
        | null =>
          have := hwrite .null (by simp [mergeStep, h1, h2])
            (by simp [propWrite, h1, h2])
          simpa [List.filterMap_cons] using this
        | boolV b =>
          have := hwrite (.boolV b) (by simp [mergeStep, h1, h2])
            (by simp [propWrite, h1, h2])
          simpa [List.filterMap_cons] using this
        | numV n =>
          have := hwrite (.numV n) (by simp [mergeStep, h1, h2])
            (by simp [propWrite, h1, h2])
          simpa [List.filterMap_cons] using this
        | arr xs =>
          have := hwrite (.arr xs) (by simp [mergeStep, h1, h2])
            (by simp [propWrite, h1, h2])
          simpa [List.filterMap_cons] using this
        | pobj m =>
          have := hwrite (.pobj m) (by simp [mergeStep, h1, h2])
            (by simp [propWrite, h1, h2])
          simpa [List.filterMap_cons] using this
        | exotic t =>
          have := hwrite (.exotic t) (by simp [mergeStep, h1, h2])
            (by simp [propWrite, h1, h2])
          simpa [List.filterMap_cons] using this

theorem fold_fns_lookup (entries : List (String × PVal)) (st : MergeState)
    (k : String) :
    (entries.foldl mergeStep st).fnsToCompose.lookup k =
      if entries.filterMap (fnAdd k) = [] then st.fnsToCompose.lookup k
      else some ((st.fnsToCompose.lookup k).getD [] ++ entries.filterMap (fnAdd k)) := by
  induction entries generalizing st with
  | nil => simp
  | cons kv rest ih =>
    obtain ⟨a, v⟩ := kv
    simp only [List.foldl_cons, List.filterMap_cons]
    by_cases h1 : v = PVal.undef
    · subst h1
      have hadd : fnAdd k (a, PVal.undef) = none := by
        by_cases hk : a = k <;> simp [fnAdd, hk]
      rw [hadd]
      simp [mergeStep, ih]
    · by_cases h2 : a = "style" ∧ v.truthy
      · obtain ⟨ha, htr⟩ := h2
        subst ha
        have hadd : fnAdd k ("style", v) = none := by
          by_cases hk : ("style" : String) = k <;> simp [fnAdd, h1, htr, hk]
        rw [hadd]
        simp [mergeStep, h1, htr, ih]
      · cases v with
        | strV s =>
          have hadd : fnAdd k (a, .strV s) = none := by
            by_cases hk : a = k <;> simp [fnAdd, h1, h2, hk]
          rw [hadd]
          by_cases h3 : a = "className" <;> simp [mergeStep, h1, h2, h3, ih]
        | fnV g =>
          have hstep : mergeStep st (a, .fnV g) =
              { st with fnsToCompose := fnsAppend st.fnsToCompose a g } := by
            simp [mergeStep, h1, h2]
          by_cases hk : a = k
          · subst hk
            have hadd : fnAdd a (a, .fnV g) = some g := by simp [fnAdd, h1, h2]
            rw [hadd, hstep, ih, lookup_fnsAppend]
            by_cases hr : rest.filterMap (fnAdd a) = []
            · simp [hr]
            · simp [hr]
          · have hadd : fnAdd k (a, .fnV g) = none := by simp [fnAdd, hk]
            have hk2 : ¬k = a := fun h => hk h.symm
            rw [hadd, hstep, ih, lookup_fnsAppend, if_neg hk2]
        | undef => exact absurd rfl h1
        | null =>
          have hadd : fnAdd k (a, .null) = none := by
            by_cases hk : a = k <;> simp [fnAdd, h1, h2, hk]
          rw [hadd]; simp [mergeStep, h1, h2, ih]
        | boolV b =>
          have hadd : fnAdd k (a, .boolV b) = none := by
            by_cases hk : a = k <;> simp [fnAdd, h1, h2, hk]
          rw [hadd]; simp [mergeStep, h1, h2, ih]
        | numV n =>
          have hadd : fnAdd k (a, .numV n) = none := by
            by_cases hk : a = k <;> simp [fnAdd, h1, h2, hk]
          rw [hadd]; simp [mergeStep, h1, h2, ih]
        | arr xs =>
          have hadd : fnAdd k (a, .arr xs) = none := by
            by_cases hk : a = k <;> simp [fnAdd, h1, h2, hk]
          rw [hadd]; simp [mergeStep, h1, h2, ih]
        | pobj m =>
          have hadd : fnAdd k (a, .pobj m) = none := by
            by_cases hk : a = k <;> simp [fnAdd, h1, h2, hk]
          rw [hadd]; simp [mergeStep, h1, h2, ih]
        | exotic t =>
          have hadd : fnAdd k (a, .exotic t) = none := by
            by_cases hk : a = k <;> simp [fnAdd, h1, h2, hk]
          rw [hadd]; simp [mergeStep, h1, h2, ih]

theorem mergeStep_final_shape (st : MergeState) (kv : String × PVal) :
    (mergeStep st kv).finalProps = st.finalProps ∨
      ∃ w, (mergeStep st kv).finalProps = objSet st.finalProps kv.1 w := by
  unfold mergeStep
  split
  · left; rfl
  · split
    · left; rfl
    · split
      · split
        · left; rfl
        · right; exact ⟨_, rfl⟩
      · left; rfl
      · right; exact ⟨_, rfl⟩

theorem mergeStep_fns_shape (st : MergeState) (kv : String × PVal) :
    (mergeStep st kv).fnsToCompose = st.fnsToCompose ∨
      ∃ g, (mergeStep st kv).fnsToCompose = fnsAppend st.fnsToCompose kv.1 g := by
  unfold mergeStep
  split
  · left; rfl
  · split
    · left; rfl
    · split
      · split
        · left; rfl
        · left; rfl
      · right; exact ⟨_, rfl⟩
      · left; rfl

theorem fold_nodup_final (entries : List (String × PVal)) (st : MergeState)
    (h : (st.finalProps.map Prod.fst).Nodup) :
    (((entries.foldl mergeStep st).finalProps).map Prod.fst).Nodup := by
  induction entries generalizing st with
  | nil => exact h
  | cons kv rest ih =>
    rw [List.foldl_cons]
    refine ih (mergeStep st kv) ?_
    rcases mergeStep_final_shape st kv with hs | ⟨w, hs⟩
    · rwa [hs]
    · rw [hs]; exact nodup_keys_objSet _ _ _ h

theorem fold_nodup_fns (entries : List (String × PVal)) (st : MergeState)
    (h : (st.fnsToCompose.map Prod.fst).Nodup) :
    (((entries.foldl mergeStep st).fnsToCompose).map Prod.fst).Nodup := by
  induction entries generalizing st with
  | nil => exact h
  | cons kv rest ih =>
    rw [List.foldl_cons]
    refine ih (mergeStep st kv) ?_
    rcases mergeStep_fns_shape st kv with hs | ⟨g, hs⟩
    · rwa [hs]
    · rw [hs]; exact nodup_keys_fnsAppend _ _ _ h

theorem lookup_foldl_objSet_notmem {β γ : Type _} (l : List (String × γ))
    (f : String × γ → β) (acc : List (String × β)) (k : String)
    (h : k ∉ l.map Prod.fst) :
    (l.foldl (fun a p => objSet a p.1 (f p)) acc).lookup k = acc.lookup k := by
  induction l generalizing acc with
  | nil => rfl
  | cons p rest ih =>
    obtain ⟨a, c⟩ := p
    simp only [List.map_cons, List.mem_cons, not_or] at h
    rw [List.foldl_cons, ih _ h.2, lookup_objSet, if_neg h.1]

theorem lookup_foldl_objSet {β γ : Type _} (l : List (String × γ))
    (f : String × γ → β) (acc : List (String × β)) (k : String)
    (hnd : (l.map Prod.fst).Nodup) :
    (l.foldl (fun a p => objSet a p.1 (f p)) acc).lookup k =
      match l.lookup k with
      | some c => some (f (k, c))
      | none => acc.lookup k := by
  induction l generalizing acc with
  | nil => rfl
  | cons p rest ih =>
    obtain ⟨a, c⟩ := p
    simp only [List.map_cons, List.nodup_cons] at hnd
    rw [List.foldl_cons]
    by_cases hk : k = a
    · subst hk
      rw [lookup_foldl_objSet_notmem rest f _ k hnd.1, lookup_objSet, if_pos rfl,
        lookup_cons_eq]
    · rw [ih _ hnd.2, lookup_cons_ne hk]
      cases rest.lookup k with
      | some c => rfl
      | none => rw [lookup_objSet, if_neg hk]

theorem lookup_styleWritten (st : MergeState) (k : String) :
    (styleWritten st).lookup k =
      if k = "style" then
        match mergeStyles st.allStyles with
        | some v => some v
        | none => st.finalProps.lookup k
      else st.finalProps.lookup k := by
  unfold styleWritten
  cases hms : mergeStyles st.allStyles <;> by_cases hk : k = "style" <;>
    simp [hms, hk, lookup_objSet]

theorem lookup_classWritten (grp : String → String) (st : MergeState) (k : String) :
    (classWritten grp st).lookup k =
      if k = "className" then
        match cn grp st.allClassNames with
        | some s => some (.strV s)
        | none => (styleWritten st).lookup k
      else (styleWritten st).lookup k := by
  unfold classWritten
  cases hcn : cn grp st.allClassNames <;> by_cases hk : k = "className" <;>
    simp [hcn, hk, lookup_objSet]

theorem mergeFinish_lookup (grp : String → String) (st : MergeState) (k : String)
    (hnd : (st.fnsToCompose.map Prod.fst).Nodup) :
    (mergeFinish grp st).lookup k =
      match st.fnsToCompose.lookup k with
      | some gs => some (.fnV (composeFunctions (gs.map PVal.fnV)))
      | none =>
        if k = "style" then
          match mergeStyles st.allStyles with
          | some v => some v
          | none => st.finalProps.lookup k
        else if k = "className" then
          match cn grp st.allClassNames with
          | some s => some (.strV s)
          | none => st.finalProps.lookup k
        else st.finalProps.lookup k := by
  unfold mergeFinish
  rw [lookup_foldl_objSet st.fnsToCompose
    (fun p => PVal.fnV (composeFunctions (p.2.map PVal.fnV))) _ _ hnd]
  cases hfns : st.fnsToCompose.lookup k with
  | some gs => rfl
  | none =>
    rw [lookup_classWritten, lookup_styleWritten]
    by_cases hs : k = "style"
    · subst hs
      have hsc : ("style" : String) ≠ "className" := by decide
      simp [hsc]
    · by_cases hc : k = "className"
      · subst hc
        simp only [if_pos rfl, if_neg hs]
      · simp [hs, hc]

/-- The full column-wise description of `mergeFinalProps`: the value of the
output at key `k` is the composed function when any source supplied a
callable at `k`; otherwise the merged style (for `style`), the merged class
name (for `className`) with the last plainly-written value as fallback, or
the last plainly-written value. -/
theorem mergeFinalProps_lookup (grp : String → String) (srcs : List (Option Frag))
    (k : String) :
    (mergeFinalProps grp srcs).lookup k =
      if (mergeEntries srcs).filterMap (fnAdd k) = [] then
        if k = "style" then
          match mergeStyles ((mergeEntries srcs).filterMap styleAdd) with
          | some v => some v
          | none => ((mergeEntries srcs).filterMap (propWrite k)).getLast?
        else if k = "className" then
          match cn grp ((mergeEntries srcs).filterMap classAdd) with
          | some s => some (.strV s)
          | none => ((mergeEntries srcs).filterMap (propWrite k)).getLast?
        else ((mergeEntries srcs).filterMap (propWrite k)).getLast?
      else
        some (.fnV (composeFunctions
          (((mergeEntries srcs).filterMap (fnAdd k)).map PVal.fnV))) := by
  unfold mergeFinalProps
  rw [foldSrcs_eq_foldEntries]
  have hnd : ((((mergeEntries srcs).foldl mergeStep MergeState.init).fnsToCompose).map
      Prod.fst).Nodup := fold_nodup_fns _ _ (by simp [MergeState.init])
  rw [mergeFinish_lookup _ _ _ hnd]
  have hfns := fold_fns_lookup (mergeEntries srcs) MergeState.init k
  have hsty := fold_allStyles (mergeEntries srcs) MergeState.init
  have hcls := fold_allClassNames (mergeEntries srcs) MergeState.init
  have hfin := fold_finalProps_lookup (mergeEntries srcs) MergeState.init k
  simp only [MergeState.init, List.lookup, List.nil_append, Option.or_none,
    Option.getD_none] at hfns hsty hcls hfin
  simp only [MergeState.init]
  rw [hfns, hsty, hcls]
  by_cases h : (mergeEntries srcs).filterMap (fnAdd k) = []
  · simp only [h, if_pos rfl, if_true]
    rw [hfin]
  · simp [h]

/-! ## Lemmas about running composed functions -/

theorem runSeq_append_last {σ : Type _} (env : FnEnv σ) (gs : List FnRep)
    (g : FnRep) (s : σ) (args : List PVal) :
    FnRep.runSeq env (gs ++ [g]) s args =
      FnRep.run env g (FnRep.runSeq env gs s args).1 args := by
  induction gs generalizing s with
  | nil => simp [FnRep.runSeq]
  | cons x xs ih =>
    cases xs with
    | nil => simp [FnRep.runSeq, FnRep.run]
    | cons y ys =>
      show FnRep.runSeq env (y :: ys ++ [g]) (FnRep.run env x s args).1 args = _
      rw [ih]
      rfl

theorem propWrite_ne_undef (k a : String) (v w : PVal)
    (h : propWrite k (a, v) = some w) : w ≠ PVal.undef := by
  intro hw
  subst hw
  by_cases h1 : a = k
  · cases v with
    | undef => simp [propWrite, h1] at h
    | strV s =>
      by_cases h3 : a = "className" <;> simp [propWrite, h1, h3, PVal.truthy] at h
    | fnV g =>
      by_cases h2 : a = "style" <;> simp [propWrite, h1, h2, PVal.truthy] at h
    | null => simp [propWrite, h1, PVal.truthy] at h
    | boolV b =>
      by_cases h2 : a = "style" ∧ (PVal.boolV b).truthy = true <;>
        simp [propWrite, h1, h2, PVal.truthy] at h
    | numV n =>
      by_cases h2 : a = "style" ∧ (PVal.numV n).truthy = true <;>
        simp [propWrite, h1, h2, PVal.truthy] at h
    | arr xs =>
      by_cases h2 : a = "style" <;> simp [propWrite, h1, h2, PVal.truthy] at h
    | pobj m =>
      by_cases h2 : a = "style" <;> simp [propWrite, h1, h2, PVal.truthy] at h
    | exotic t =>
      by_cases h2 : a = "style" <;> simp [propWrite, h1, h2, PVal.truthy] at h
  · simp [propWrite, h1] at h

mutual

theorem flattenStyleInput_ne_undef :
    ∀ (v : PVal), ∀ x ∈ flattenStyleInput v, x ≠ PVal.undef
  | .undef, x, hx => by simp [flattenStyleInput] at hx
  | .null, x, hx => by simp [flattenStyleInput] at hx
  | .boolV false, x, hx => by simp [flattenStyleInput] at hx
  | .boolV true, x, hx => by
      simp only [flattenStyleInput, List.mem_singleton] at hx
      subst hx; simp
  | .strV s, x, hx => by
      simp only [flattenStyleInput, List.mem_singleton] at hx
      subst hx; simp
  | .numV n, x, hx => by
      simp only [flattenStyleInput, List.mem_singleton] at hx
      subst hx; simp
  | .fnV g, x, hx => by
      simp only [flattenStyleInput, List.mem_singleton] at hx
      subst hx; simp
  | .arr xs, x, hx => by
      simp only [flattenStyleInput] at hx
      exact flattenStyleList_ne_undef xs x hx
  | .pobj m, x, hx => by
      simp only [flattenStyleInput, List.mem_singleton] at hx
      subst hx; simp
  | .exotic t, x, hx => by
      simp only [flattenStyleInput, List.mem_singleton] at hx
      subst hx; simp

theorem flattenStyleList_ne_undef :
    ∀ (l : List PVal), ∀ x ∈ flattenStyleList l, x ≠ PVal.undef
  | [], x, hx => by simp [flattenStyleList] at hx
  | v :: vs, x, hx => by
      simp only [flattenStyleList, List.mem_append] at hx
      cases hx with
      | inl h => exact flattenStyleInput_ne_undef v x h
      | inr h => exact flattenStyleList_ne_undef vs x h

end

theorem mergeStyles_ne_undef (styles : List PVal) (v : PVal)
    (h : mergeStyles styles = some v) : v ≠ PVal.undef := by
  unfold mergeStyles at h
  cases hfl : flattenStyleList styles with
  | nil => rw [hfl] at h; exact Option.noConfusion h
  | cons x rest =>
    cases rest with
    | nil =>
      rw [hfl] at h
      have hx : x ≠ PVal.undef :=
        flattenStyleList_ne_undef styles x (by rw [hfl]; exact List.mem_singleton_self x)
      have hv := Option.some.inj h
      rw [← hv]
      exact hx
    | cons y rest2 =>
      rw [hfl] at h
      by_cases hm : (x :: y :: rest2).all isMergeableStyle
      · rw [show (match x :: y :: rest2 with
            | [] => (none : Option PVal)
            | [x] => some x
            | fl =>
              if fl.all isMergeableStyle then
                if (objAssign (fl.map PVal.pobjMap)).isEmpty then none
                else some (.pobj (objAssign (fl.map PVal.pobjMap)))
              else some (.arr fl)) =
            (if (x :: y :: rest2).all isMergeableStyle then
              if (objAssign ((x :: y :: rest2).map PVal.pobjMap)).isEmpty then none
              else some (.pobj (objAssign ((x :: y :: rest2).map PVal.pobjMap)))
            else some (.arr (x :: y :: rest2))) from rfl, if_pos hm] at h
        by_cases he : (objAssign ((x :: y :: rest2).map PVal.pobjMap)).isEmpty
        · rw [if_pos he] at h; exact Option.noConfusion h
        · rw [if_neg he] at h
          have hv := Option.some.inj h
          rw [← hv]; simp
      · rw [show (match x :: y :: rest2 with
            | [] => (none : Option PVal)
            | [x] => some x
            | fl =>
              if fl.all isMergeableStyle then
                if (objAssign (fl.map PVal.pobjMap)).isEmpty then none
                else some (.pobj (objAssign (fl.map PVal.pobjMap)))
              else some (.arr fl)) =
            (if (x :: y :: rest2).all isMergeableStyle then
              if (objAssign ((x :: y :: rest2).map PVal.pobjMap)).isEmpty then none
              else some (.pobj (objAssign ((x :: y :: rest2).map PVal.pobjMap)))
            else some (.arr (x :: y :: rest2))) from rfl, if_neg hm] at h
        have hv := Option.some.inj h
        rw [← hv]; simp

/-! ## Claim theorems -/

theorem getLast?_mem {α : Type _} {l : List α} {w : α}
    (hg : l.getLast? = some w) : w ∈ l := by
  obtain ⟨hne, hw2⟩ := List.mem_getLast?_eq_getLast (show w ∈ l.getLast? from hg)
  rw [hw2]
  exact List.getLast_mem hne

theorem mergeFrag_undef (f : Frag) (st : MergeState)
    (h : ∀ kv ∈ f, kv.2 = PVal.undef) : mergeFrag st f = st := by
  induction f generalizing st with
  | nil => rfl
  | cons kv rest ih =>
    have hkv : kv.2 = PVal.undef := h kv (List.mem_cons_self kv rest)
    show List.foldl mergeStep (mergeStep st kv) rest = st
    rw [show mergeStep st kv = st from by simp [mergeStep, hkv]]
    exact ih st (fun kv2 h2 => h kv2 (List.mem_cons_of_mem kv h2))

/-- C5: `mergeFinalProps` ignores every key whose value is `undefined`: a
source fragment consisting of `undefined`-valued entries leaves the merge
result unchanged (so a key set by an earlier fragment keeps its value when a
later fragment passes `undefined`), and no key of the output is ever bound
to `undefined`. -/
theorem mergeFinalProps_undef_ignored (grp : String → String)
    (pre post : List (Option Frag)) (f : Frag)
    (hf : ∀ kv ∈ f, kv.2 = PVal.undef) :
    mergeFinalProps grp (pre ++ some f :: post) = mergeFinalProps grp (pre ++ post) ∧
    ∀ (srcs : List (Option Frag)) (k : String),
      (mergeFinalProps grp srcs).lookup k ≠ some PVal.undef := by
  constructor
  · unfold mergeFinalProps
    rw [List.foldl_append, List.foldl_append, List.foldl_cons]
    dsimp only
    rw [show mergeFrag
        (pre.foldl (fun st s => match s with
          | none => st
          | some f => mergeFrag st f) MergeState.init) f =
        pre.foldl (fun st s => match s with
          | none => st
          | some f => mergeFrag st f) MergeState.init from mergeFrag_undef f _ hf]
  · intro srcs k
    rw [mergeFinalProps_lookup]
    by_cases hfn : (mergeEntries srcs).filterMap (fnAdd k) = []
    · rw [if_pos hfn]
      by_cases hs : k = "style"
      · rw [if_pos hs]
        cases hms : mergeStyles ((mergeEntries srcs).filterMap styleAdd) with
        | some v =>
          intro hc
          exact mergeStyles_ne_undef _ _ hms (Option.some.inj hc)
        | none =>
          intro hc
          cases hg : ((mergeEntries srcs).filterMap (propWrite k)).getLast? with
          | none => rw [hg] at hc; exact Option.noConfusion hc
          | some w =>
            rw [hg] at hc
            have hw := Option.some.inj hc
            have hmem : w ∈ (mergeEntries srcs).filterMap (propWrite k) :=
              getLast?_mem hg
            obtain ⟨kv, _, hkv⟩ := List.mem_filterMap.mp hmem
            exact propWrite_ne_undef k kv.1 kv.2 w hkv hw
      · rw [if_neg hs]
        by_cases hc2 : k = "className"
        · rw [if_pos hc2]
          cases hcn : cn grp ((mergeEntries srcs).filterMap classAdd) with
          | some s => simp
          | none =>
            intro hc
            cases hg : ((mergeEntries srcs).filterMap (propWrite k)).getLast? with
            | none => rw [hg] at hc; exact Option.noConfusion hc
            | some w =>
              rw [hg] at hc
              have hw := Option.some.inj hc
              have hmem : w ∈ (mergeEntries srcs).filterMap (propWrite k) :=
                getLast?_mem hg
              obtain ⟨kv, _, hkv⟩ := List.mem_filterMap.mp hmem
              exact propWrite_ne_undef k kv.1 kv.2 w hkv hw
        · rw [if_neg hc2]
          intro hc
          cases hg : ((mergeEntries srcs).filterMap (propWrite k)).getLast? with
          | none => rw [hg] at hc; exact Option.noConfusion hc
          | some w =>
            rw [hg] at hc
            have hw := Option.some.inj hc
            have hmem : w ∈ (mergeEntries srcs).filterMap (propWrite k) :=
              getLast?_mem hg
            obtain ⟨kv, _, hkv⟩ := List.mem_filterMap.mp hmem
            exact propWrite_ne_undef k kv.1 kv.2 w hkv hw
    · rw [if_neg hfn]
      simp

/-- Witness for C5 at a concrete input: `merge({a: 1}, {a: undefined})`
equals `merge({a: 1})`, i.e. `{a: 1}`, and the output never binds a key to
`undefined`. -/
theorem mergeFinalProps_undef_ignored_witness :
    mergeFinalProps id [some [("a", PVal.numV 1)], some [("a", PVal.undef)]] =
        [("a", PVal.numV 1)] ∧
      (mergeFinalProps id [some [("a", PVal.numV 1)]]).lookup "a" ≠
        some PVal.undef := by
  have h := mergeFinalProps_undef_ignored id [some [("a", PVal.numV 1)]] []
    [("a", PVal.undef)] (by decide)
  constructor
  · rw [show [some [("a", PVal.numV 1)], some [("a", PVal.undef)]] =
      [some [("a", PVal.numV 1)]] ++ some [("a", PVal.undef)] :: [] from rfl, h.1]
    rfl
  · exact h.2 [some [("a", PVal.numV 1)]] "a"

/-- C6: `composeFunctions` filters its inputs to the callable ones; with
zero callables it returns a function that returns `undefined` (and leaves
the world untouched); with exactly one callable it returns that callable
itself unchanged; with two or more it returns a function that, for any
argument list, calls each callable in input order with those same arguments
(threading the world state through the calls) and returns the last
callable's return value. -/
theorem composeFunctions_spec (vals : List PVal) :
    (vals.filterMap PVal.asFn = [] →
      composeFunctions vals = .noop ∧
        ∀ (σ : Type) (env : FnEnv σ) (s : σ) (args : List PVal),
          FnRep.run env (composeFunctions vals) s args = (s, .undef)) ∧
    (∀ f, vals.filterMap PVal.asFn = [f] → composeFunctions vals = f) ∧
    (∀ f1 f2 rest, vals.filterMap PVal.asFn = f1 :: f2 :: rest →
      composeFunctions vals = .comp (f1 :: f2 :: rest) ∧
        ∀ (σ : Type) (env : FnEnv σ) (s : σ) (args : List PVal)
          (gs : List FnRep) (g : FnRep), f1 :: f2 :: rest = gs ++ [g] →
          FnRep.run env (composeFunctions vals) s args =
            FnRep.run env g (FnRep.runSeq env gs s args).1 args) := by
  refine ⟨?_, ?_, ?_⟩
  · intro hf
    have hc : composeFunctions vals = .noop := by
      unfold composeFunctions
      rw [hf]
    exact ⟨hc, fun σ env s args => by rw [hc]; rfl⟩
  · intro f hf
    unfold composeFunctions
    rw [hf]
  · intro f1 f2 rest hf
    have hc : composeFunctions vals = .comp (f1 :: f2 :: rest) := by
      unfold composeFunctions
      rw [hf]
    refine ⟨hc, fun σ env s args gs g hsplit => ?_⟩
    rw [hc]
    show FnRep.runSeq env (f1 :: f2 :: rest) s args = _
    rw [hsplit, runSeq_append_last]

/-- Witness for C6 at a concrete input: composing `atom 1`, a non-callable
string, `atom 2` and `atom 3` under a logging environment calls the three
atoms in order (the log reads `[1, 2, 3]`) and returns the last atom's
value. -/
theorem composeFunctions_spec_witness :
    FnRep.run (fun n s _ => (s ++ [n], PVal.numV n))
        (composeFunctions
          [.fnV (.atom 1), .strV "x", .fnV (.atom 2), .fnV (.atom 3)])
        ([] : List Nat) [] = ([1, 2, 3], PVal.numV 3) := by
  have h := (composeFunctions_spec
    [.fnV (.atom 1), .strV "x", .fnV (.atom 2), .fnV (.atom 3)]).2.2
    (.atom 1) (.atom 2) [.atom 3] (by decide)
  rw [h.2 (List Nat) (fun n s _ => (s ++ [n], PVal.numV n)) [] []
    [.atom 1, .atom 2] (.atom 3) rfl]
  rfl

/-- C2 counterexample: a compound rule whose condition declares `size:
undefined` matches an ActiveSelections map in which the axis `size` is
absent (JS: `undefined !== undefined` is false), so the rule's props are
applied — the claim that a condition on an absent axis can never match is
false on the code. -/
theorem compound_undefined_condition_matches :
    matchesCompoundConditions [("size", PVal.undef)] [] = true ∧
    (List.lookup "size" ([] : ActiveVariants)) = none ∧
    resolveCompoundVariantProps id
        (some [⟨[("size", PVal.undef)], [("id", PVal.strV "x")]⟩]) [] =
      [("id", PVal.strV "x")] := by
  refine ⟨by decide, rfl, by decide⟩

/-- C2 (amended): a compound rule matches iff, for every non-`props` key of
the rule, the JS property read `ActiveSelections[key]` (which yields
`undefined` for an absent axis) is strictly equal to the declared condition
value; consequently a condition on an axis absent from ActiveSelections
matches exactly when its declared value is `undefined`, and
`resolveCompoundVariantProps` merges the props of exactly the matching
rules, in declaration order. -/
theorem matchesCompound_amended (conds : List (String × PVal))
    (active : ActiveVariants) :
    (matchesCompoundConditions conds active = true ↔
      ∀ kv ∈ conds, jsGet active kv.1 = kv.2) ∧
    (∀ k : String, active.lookup k = none →
      ∀ v, (matchesCompoundConditions [(k, v)] active = true ↔ v = PVal.undef)) ∧
    (∀ (grp : String → String) (c : CompoundRule) (rest : List CompoundRule),
      resolveCompoundVariantProps grp (some (c :: rest)) active =
        mergeFinalProps grp
          ((((c :: rest).filter
            (fun c => matchesCompoundConditions c.conditions active)).map
            CompoundRule.props).map some)) := by
  refine ⟨?_, ?_, ?_⟩
  · unfold matchesCompoundConditions
    simp [List.all_eq_true]
  · intro k hk v
    unfold matchesCompoundConditions jsGet
    simp [hk, List.all_eq_true, eq_comm]
  · intro grp c rest
    rfl

/-- Witness for C2 (amended) at a concrete input: the rule
`{variant: "primary", size: "lg"}` matches `{variant: "primary", size:
"lg"}`, does not match when `size` is absent, an absent axis with an
`undefined` condition value does match, and the matching rule's props are
merged. -/
theorem matchesCompound_amended_witness :
    matchesCompoundConditions
        [("variant", PVal.strV "primary"), ("size", PVal.strV "lg")]
        [("variant", PVal.strV "primary"), ("size", PVal.strV "lg")] = true ∧
      matchesCompoundConditions
        [("variant", PVal.strV "primary"), ("size", PVal.strV "lg")]
        [("variant", PVal.strV "primary")] = false ∧
      matchesCompoundConditions [("size", PVal.undef)]
        [("variant", PVal.strV "primary")] = true := by
  have h1 := (matchesCompound_amended
    [("variant", PVal.strV "primary"), ("size", PVal.strV "lg")]
    [("variant", PVal.strV "primary"), ("size", PVal.strV "lg")]).1
  have h2 := (matchesCompound_amended [("size", PVal.undef)]
    [("variant", PVal.strV "primary")]).2.1 "size" (by decide) PVal.undef
  refine ⟨h1.mpr (by decide), by decide, h2.mpr rfl⟩

theorem lookup_foldl_objSpread {β : Type _} (ms : List (List (String × β)))
    (acc : List (String × β)) (k : String) :
    (ms.foldl (fun a m => objSpread a m) acc).lookup k =
      ms.foldl (fun o m => (m.reverse.lookup k).or o) (acc.lookup k) := by
  induction ms generalizing acc with
  | nil => rfl
  | cons m ms ih =>
    rw [List.foldl_cons, ih, List.foldl_cons, lookup_objSpread]
    have : ((m.reverse.lookup k).orElse fun _ => acc.lookup k) =
        (m.reverse.lookup k).or (acc.lookup k) := by
      cases m.reverse.lookup k <;> rfl
    rw [this]

theorem lookup_objAssign (ms : List (List (String × PBase))) (k : String) :
    (objAssign ms).lookup k =
      ms.foldl (fun o m => (m.reverse.lookup k).or o) none := by
  have : objAssign ms = ms.foldl (fun a m => objSpread a m) [] := rfl
  rw [this, lookup_foldl_objSpread]
  rfl

/-- C7 counterexample: `mergeStyles({}, {})` flattens to two plain
mergeable maps, but instead of returning their shallow merge (the empty
map), the code returns absent — so the all-plain branch does not always
return the merged map. -/
theorem mergeStyles_empty_merge_absent :
    mergeStyles [PVal.pobj [], PVal.pobj []] = none ∧
      some (PVal.pobj (objAssign ([[], []] : List (List (String × PBase))))) ≠
        (none : Option PVal) := by
  exact ⟨by decide, by decide⟩

/-- C7 (amended): `mergeStyles` first recursively flattens nested arrays
dropping `null`/`false`/`undefined`; an empty flattened list yields absent;
a single remaining element is returned as-is (identity preserved, exotic or
not); two or more all-plain elements are shallow-merged left-to-right with
later keys winning, the merged map being returned when it has at least one
key and absent when it is empty; and any non-plain remaining element makes
the full ordered flattened list be returned unmerged. -/
theorem mergeStyles_amended (xs : List PVal) :
    (flattenStyleList xs = [] → mergeStyles xs = none) ∧
    (∀ x, flattenStyleList xs = [x] → mergeStyles xs = some x) ∧
    (∀ x y rest, flattenStyleList xs = x :: y :: rest →
      ((x :: y :: rest).all isMergeableStyle = true →
        mergeStyles xs =
          (if (objAssign ((x :: y :: rest).map PVal.pobjMap)).isEmpty then none
           else some (.pobj (objAssign ((x :: y :: rest).map PVal.pobjMap)))) ∧
        ∀ k, (objAssign ((x :: y :: rest).map PVal.pobjMap)).lookup k =
          ((x :: y :: rest).map PVal.pobjMap).foldl
            (fun o m => (m.reverse.lookup k).or o) none) ∧
      ((x :: y :: rest).all isMergeableStyle = false →
        mergeStyles xs = some (.arr (x :: y :: rest)))) ∧
    (flattenStyleInput (.arr xs) = flattenStyleList xs ∧
      flattenStyleInput .undef = [] ∧ flattenStyleInput .null = [] ∧
      flattenStyleInput (.boolV false) = []) := by
  refine ⟨?_, ?_, ?_, rfl, rfl, rfl, rfl⟩
  · intro hfl
    unfold mergeStyles
    rw [hfl]
  · intro x hfl
    unfold mergeStyles
    rw [hfl]
  · intro x y rest hfl
    constructor
    · intro hm
      constructor
      · unfold mergeStyles
        rw [hfl]
        show (if (x :: y :: rest).all isMergeableStyle then _ else _) = _
        rw [if_pos hm]
      · intro k
        exact lookup_objAssign _ k
    · intro hm
      unfold mergeStyles
      rw [hfl]
      show (if (x :: y :: rest).all isMergeableStyle then _ else _) = _
      rw [hm]
      rfl

/-- Witness for C7 (amended) at concrete inputs: merging two plain maps
takes the later key, a sole exotic element is returned identically, and a
plain element next to an exotic one forces the ordered-list fallback. -/
theorem mergeStyles_amended_witness :
    mergeStyles [PVal.pobj [("a", .i 1)], PVal.pobj [("a", .i 2), ("b", .i 3)]] =
        some (PVal.pobj [("a", .i 2), ("b", .i 3)]) ∧
      mergeStyles [PVal.exotic 5] = some (PVal.exotic 5) ∧
      mergeStyles [PVal.arr [PVal.pobj [("a", .i 1)], PVal.null], PVal.exotic 5] =
        some (PVal.arr [PVal.pobj [("a", .i 1)], PVal.exotic 5]) := by
  refine ⟨?_, ?_, ?_⟩
  · have h := ((mergeStyles_amended
      [PVal.pobj [("a", .i 1)], PVal.pobj [("a", .i 2), ("b", .i 3)]]).2.2.1
      (PVal.pobj [("a", .i 1)]) (PVal.pobj [("a", .i 2), ("b", .i 3)]) []
      (by decide)).1 (by decide)
    rw [h.1]
    decide
  · exact (mergeStyles_amended [PVal.exotic 5]).2.1 (PVal.exotic 5) (by decide)
  · have h := ((mergeStyles_amended
      [PVal.arr [PVal.pobj [("a", .i 1)], PVal.null], PVal.exotic 5]).2.2.1
      (PVal.pobj [("a", .i 1)]) (PVal.exotic 5) [] (by decide)).2 (by decide)
    rw [h]

theorem mergeFinalProps_simple_lookup (grp : String → String)
    (srcs : List (Option Frag)) (p : String)
    (hs : p ≠ "style") (hc : p ≠ "className")
    (hnofn : (mergeEntries srcs).filterMap (fnAdd p) = []) :
    (mergeFinalProps grp srcs).lookup p =
      ((mergeEntries srcs).filterMap (propWrite p)).getLast? := by
  rw [mergeFinalProps_lookup, if_pos hnofn, if_neg hs, if_neg hc]

theorem fnAdd_self_none (p : String) (v : PVal) (hs : p ≠ "style")
    (h : v.asFn = none) : fnAdd p (p, v) = none := by
  cases v with
  | fnV g => simp [PVal.asFn] at h
  | undef => simp [fnAdd]
  | strV s => simp [fnAdd, hs]
  | null => simp [fnAdd, hs]
  | boolV b => simp [fnAdd, hs]
  | numV n => simp [fnAdd, hs]
  | arr xs => simp [fnAdd, hs]
  | pobj m => simp [fnAdd, hs]
  | exotic t => simp [fnAdd, hs]

theorem propWrite_self (p : String) (v : PVal) (hs : p ≠ "style")
    (hc : p ≠ "className") (hu : v ≠ PVal.undef) (hf : v.asFn = none) :
    propWrite p (p, v) = some v := by
  cases v with
  | fnV g => simp [PVal.asFn] at hf
  | undef => exact absurd rfl hu
  | strV s => simp [propWrite, hs, hc]
  | null => simp [propWrite, hs]
  | boolV b => simp [propWrite, hs]
  | numV n => simp [propWrite, hs]
  | arr xs => simp [propWrite, hs]
  | pobj m => simp [propWrite, hs]
  | exotic t => simp [propWrite, hs]

/-- C3 counterexample: with the variant table declaring axis `a` before
axis `b` (both contributing prop `p`) and ActiveSelections iterating `b`
before `a`, the resolved value of `p` is axis `a`'s fragment — the
last-matching entry of ActiveSelections — not the fragment of `b`, the
last-declared matching axis of the table, as the claim requires. -/
theorem resolveVariant_tableOrder_counterexample :
    (resolveVariantProps id
        (some [("a", [("on", [("p", PVal.strV "fromA")])]),
               ("b", [("on", [("p", PVal.strV "fromB")])])])
        [("b", PVal.strV "on"), ("a", PVal.strV "on")]).lookup "p" =
      some (PVal.strV "fromA") ∧
      some (PVal.strV "fromA") ≠ some (PVal.strV "fromB") := by
  exact ⟨by decide, by decide⟩

/-- C3 (amended): `resolveVariantProps` collects the matching fragments by
iterating the ActiveSelections map (in its iteration order), not the
variant table, and merges them in that order, so when two active axes
collide on the same non-composable prop name the fragment of the
last-iterated ActiveSelections entry wins — regardless of the axes'
declaration order in the table. -/
theorem resolveVariantProps_activeOrder (grp : String → String)
    (vs : VariantsConfig) (active : ActiveVariants) :
    (resolveVariantProps grp (some vs) active =
      mergeFinalProps grp
        ((active.filterMap (fun kv =>
          (vs.lookup kv.1).bind
            (fun cfg => cfg.lookup kv.2.asPropertyKey))).map some)) ∧
    ∀ (k1 k2 : String) (v1 v2 : PVal) (p : String) (a b : PVal),
      active = [(k1, v1), (k2, v2)] →
      (vs.lookup k1).bind (fun cfg => cfg.lookup v1.asPropertyKey) =
        some [(p, a)] →
      (vs.lookup k2).bind (fun cfg => cfg.lookup v2.asPropertyKey) =
        some [(p, b)] →
      p ≠ "style" → p ≠ "className" →
      a.asFn = none → b.asFn = none → b ≠ PVal.undef →
      (resolveVariantProps grp (some vs) active).lookup p = some b := by
  refine ⟨rfl, ?_⟩
  intro k1 k2 v1 v2 p a b hact hx1 hx2 hs hc ha hb hbu
  subst hact
  show (mergeFinalProps grp _).lookup p = some b
  rw [show ([(k1, v1), (k2, v2)] : ActiveVariants).filterMap (fun kv =>
      (vs.lookup kv.1).bind (fun cfg => cfg.lookup kv.2.asPropertyKey)) =
      [[(p, a)], [(p, b)]] from by
    simp [List.filterMap_cons, hx1, hx2]]
  have hent : mergeEntries (List.map some [[(p, a)], [(p, b)]]) =
      [(p, a), (p, b)] := rfl
  rw [mergeFinalProps_simple_lookup grp _ p hs hc
    (by rw [hent]
        simp [List.filterMap_cons, fnAdd_self_none p a hs ha,
          fnAdd_self_none p b hs hb])]
  rw [hent]
  by_cases hau : a = PVal.undef
  · subst hau
    rw [show List.filterMap (propWrite p) [(p, PVal.undef), (p, b)] = [b] from by
      rw [List.filterMap_cons, List.filterMap_cons, List.filterMap_nil,
        show propWrite p (p, PVal.undef) = none from by simp [propWrite],
        propWrite_self p b hs hc hbu hb]]
    rfl
  · rw [show List.filterMap (propWrite p) [(p, a), (p, b)] = [a, b] from by
      simp [List.filterMap_cons, propWrite_self p a hs hc hau ha,
        propWrite_self p b hs hc hbu hb]]
    rfl

/-- Witness for C3 (amended) at the counterexample input: with active order
`b` then `a`, axis `a`'s fragment wins prop `p`. -/
theorem resolveVariantProps_activeOrder_witness :
    (resolveVariantProps id
        (some [("a", [("on", [("p", PVal.strV "fromA")])]),
               ("b", [("on", [("p", PVal.strV "fromB")])])])
        [("b", PVal.strV "on"), ("a", PVal.strV "on")]).lookup "p" =
      some (PVal.strV "fromA") := by
  exact (resolveVariantProps_activeOrder id
    [("a", [("on", [("p", PVal.strV "fromA")])]),
     ("b", [("on", [("p", PVal.strV "fromB")])])]
    [("b", PVal.strV "on"), ("a", PVal.strV "on")]).2
    "b" "a" (PVal.strV "on") (PVal.strV "on") "p"
    (PVal.strV "fromB") (PVal.strV "fromA")
    rfl (by decide) (by decide) (by decide) (by decide) rfl rfl (by decide)

/-- C9: the pipeline is total (no exceptions anywhere in the embedding) and
its silent no-op conditions hold: an active axis with no variant-table
entry contributes nothing, a known axis with an unknown value token
contributes nothing (in particular never another token's fragment), and a
context read with no enclosing provider behaves exactly as an empty
selection map. -/
theorem pipeline_silent_noop (grp : String → String) (vs : VariantsConfig)
    (k : String) (v : PVal) (pre post : ActiveVariants) :
    (vs.lookup k = none →
      resolveVariantProps grp (some vs) (pre ++ (k, v) :: post) =
        resolveVariantProps grp (some vs) (pre ++ post)) ∧
    (∀ cfg1, vs.lookup k = some cfg1 → cfg1.lookup v.asPropertyKey = none →
      resolveVariantProps grp (some vs) (pre ++ (k, v) :: post) =
        resolveVariantProps grp (some vs) (pre ++ post)) ∧
    (∀ (cfg : StyledConfig) (incomingProps : List (String × PVal)),
      styledRender grp cfg none incomingProps =
        styledRender grp cfg (some []) incomingProps) := by
  refine ⟨?_, ?_, ?_⟩
  · intro hk
    unfold resolveVariantProps
    dsimp only
    rw [List.filterMap_append, List.filterMap_append, List.filterMap_cons]
    simp [hk]
  · intro cfg1 hk hv
    unfold resolveVariantProps
    dsimp only
    rw [List.filterMap_append, List.filterMap_append, List.filterMap_cons]
    simp [hk, hv]
  · intro cfg incomingProps
    have hcv : contextVariantsOf cfg none = contextVariantsOf cfg (some []) := by
      unfold contextVariantsOf
      cases cfg.context <;> rfl
    have hpp : partitionProps cfg none incomingProps =
        partitionProps cfg (some []) incomingProps := by
      unfold partitionProps
      rw [hcv]
    unfold styledRender
    rw [hpp]

/-- Witness for C9 at concrete inputs: an unknown axis `ghost` and an
unknown token `unknown` under the known axis `variant` both resolve to the
same fragment as if absent (and not to the `primary` fragment), and a
render without a provider equals a render with an empty ambient map. -/
theorem pipeline_silent_noop_witness :
    resolveVariantProps id
        (some [("variant", [("primary", [("id", PVal.strV "p")])])])
        [("ghost", PVal.strV "on"), ("variant", PVal.strV "unknown")] =
      resolveVariantProps id
        (some [("variant", [("primary", [("id", PVal.strV "p")])])]) [] ∧
    styledRender id
        ⟨some ⟨["variant"]⟩, none,
         some [("variant", [("primary", [("id", PVal.strV "p")])])], none, none⟩
        none [] =
      styledRender id
        ⟨some ⟨["variant"]⟩, none,
         some [("variant", [("primary", [("id", PVal.strV "p")])])], none, none⟩
        (some []) [] := by
  constructor
  · have h1 := (pipeline_silent_noop id
      [("variant", [("primary", [("id", PVal.strV "p")])])]
      "ghost" (PVal.strV "on") []
      [("variant", PVal.strV "unknown")]).1 (by decide)
    have h2 := (pipeline_silent_noop id
      [("variant", [("primary", [("id", PVal.strV "p")])])]
      "variant" (PVal.strV "unknown") [] []).2.1
      [("primary", [("id", PVal.strV "p")])] (by decide) (by decide)
    exact h1.trans h2
  · exact (pipeline_silent_noop id
      [("variant", [("primary", [("id", PVal.strV "p")])])]
      "x" PVal.null [] []).2.2
      ⟨some ⟨["variant"]⟩, none,
       some [("variant", [("primary", [("id", PVal.strV "p")])])], none, none⟩ []

/-! ## Helper lemmas for the prop-partitioning loop -/

theorem objSet_append_of_notmem {β : Type _} (m : List (String × β)) (k : String)
    (v : β) (h : m.lookup k = none) : objSet m k v = m ++ [(k, v)] := by
  induction m with
  | nil => rfl
  | cons p rest ih =>
    obtain ⟨a, b⟩ := p
    by_cases ha : a = k
    · subst ha; rw [lookup_cons_eq] at h; exact Option.noConfusion h
    · rw [lookup_cons_ne (fun he => ha he.symm)] at h
      simp only [objSet, if_neg ha, List.cons_append, ih h]

theorem objSpread_append_of_disjoint {β : Type _} (l : List (String × β)) :
    ∀ (acc : List (String × β)),
      (∀ x ∈ l.map Prod.fst, acc.lookup x = none) →
      (l.map Prod.fst).Nodup → objSpread acc l = acc ++ l := by
  induction l with
  | nil => intro acc _ _; simp [objSpread]
  | cons p rest ih =>
    intro acc hdisj hnd2
    obtain ⟨a, b⟩ := p
    simp only [List.map_cons, List.nodup_cons] at hnd2
    show objSpread (objSet acc a b) rest = acc ++ (a, b) :: rest
    rw [objSet_append_of_notmem acc a b (hdisj a (by simp))]
    rw [ih (acc ++ [(a, b)]) ?_ hnd2.2]
    · simp
    · intro x hx
      rw [lookup_append]
      have h1 : acc.lookup x = none := hdisj x (by simp [hx])
      have h2 : List.lookup x [(a, b)] = none := by
        have hxa : x ≠ a := fun he => hnd2.1 (he ▸ hx)
        rw [lookup_cons_ne hxa]; rfl
      rw [h1, h2]
      rfl

theorem objSpread_nil_of_nodup {β : Type _} (l : List (String × β))
    (hnd : (l.map Prod.fst).Nodup) : objSpread [] l = l := by
  have := objSpread_append_of_disjoint l [] (fun x _ => rfl) hnd
  simpa using this

theorem lookup_filter_of_nodup {β : Type _} (l : List (String × β))
    (p : String × β → Bool) (k : String) (hnd : (l.map Prod.fst).Nodup) :
    (l.filter p).lookup k =
      match l.lookup k with
      | some v => if p (k, v) then some v else none
      | none => none := by
  induction l with
  | nil => rfl
  | cons q rest ih =>
    obtain ⟨a, b⟩ := q
    simp only [List.map_cons, List.nodup_cons] at hnd
    by_cases hk : k = a
    · subst hk
      have hfrest : (rest.filter p).lookup k = none := by
        rw [lookup_eq_none_iff]
        intro hmem
        obtain ⟨kv, hkv_mem, hkv_eq⟩ := List.mem_map.mp hmem
        have hkv2 : kv ∈ rest := List.mem_of_mem_filter hkv_mem
        exact hnd.1 (hkv_eq ▸ List.mem_map_of_mem Prod.fst hkv2)
      by_cases hp : p (k, b)
      · rw [List.filter_cons_of_pos hp, lookup_cons_eq, lookup_cons_eq]
        simp [hp]
      · rw [List.filter_cons_of_neg (by simp [hp]), lookup_cons_eq]
        simp [hp, hfrest]
    · rw [lookup_cons_ne hk]
      by_cases hp : p (a, b)
      · rw [List.filter_cons_of_pos hp, lookup_cons_ne hk, ih hnd.2]
      · rw [List.filter_cons_of_neg (by simp [hp]), ih hnd.2]

/-- The partitioning loop, characterised: the active selections are the
initial map overlaid (in order) with the matching incoming entries, the
direct-props bucket extends with the non-matching entries, and the variant
flag is raised exactly when a matching entry exists. -/
theorem partition_fold (vks : List String) (incoming : List (String × PVal))
    (st : PartitionState) :
    (incoming.foldl (partitionStep vks) st).activeVariants =
      objSpread st.activeVariants
        (incoming.filter (fun kv => vks.contains kv.1 ∧ kv.2 ≠ PVal.undef)) ∧
    (incoming.foldl (partitionStep vks) st).directProps =
      objSpread st.directProps
        (incoming.filter (fun kv => ¬(vks.contains kv.1 ∧ kv.2 ≠ PVal.undef))) ∧
    ((incoming.foldl (partitionStep vks) st).hasVariantProps = true ↔
      (st.hasVariantProps = true ∨
        ∃ kv ∈ incoming, vks.contains kv.1 ∧ kv.2 ≠ PVal.undef)) := by
  induction incoming generalizing st with
  | nil => simp [objSpread]
  | cons kv rest ih =>
    by_cases h : vks.contains kv.1 ∧ kv.2 ≠ PVal.undef
    · have hstep : partitionStep vks st kv =
          { st with activeVariants := objSet st.activeVariants kv.1 kv.2,
                    hasVariantProps := true } := by
        unfold partitionStep
        rw [if_pos h]
      rw [List.foldl_cons, hstep,
        List.filter_cons_of_pos (by simp only [decide_eq_true_eq]; exact h),
        List.filter_cons_of_neg (by simp only [decide_eq_true_eq]; exact fun hc => hc h)]
      obtain ⟨ih1, ih2, ih3⟩ := ih _
      refine ⟨?_, ?_, ?_⟩
      · rw [ih1]; rfl
      · rw [ih2]
      · rw [ih3]
        constructor
        · intro _
          exact Or.inr ⟨kv, List.mem_cons_self kv rest, h⟩
        · intro _
          exact Or.inl rfl
    · have hstep : partitionStep vks st kv =
          { st with directProps := objSet st.directProps kv.1 kv.2 } := by
        simp only [partitionStep, if_neg h]
      rw [List.foldl_cons, hstep,
        List.filter_cons_of_neg (by simp only [decide_eq_true_eq]; exact h),
        List.filter_cons_of_pos (by simp only [decide_eq_true_eq]; exact h)]
      obtain ⟨ih1, ih2, ih3⟩ := ih _
      refine ⟨?_, ?_, ?_⟩
      · rw [ih1]
      · rw [ih2]; rfl
      · rw [ih3]
        constructor
        · rintro (hst | ⟨kv2, hmem, hkv2⟩)
          · exact Or.inl hst
          · exact Or.inr ⟨kv2, List.mem_cons_of_mem kv hmem, hkv2⟩
        · rintro (hst | ⟨kv2, hmem, hkv2⟩)
          · exact Or.inl hst
          · rcases List.mem_cons.mp hmem with heq | hmem2
            · exact absurd (heq ▸ hkv2) h
            · exact Or.inr ⟨kv2, hmem2, hkv2⟩

theorem orElse_thunk_eq_or {α : Type _} (a b : Option α) :
    (a.orElse fun _ => b) = a.or b := by
  cases a <;> rfl

/-- C4: per render, the ActiveSelections map is built with the precedence
default-variants, then ambient-context values, then incoming props on
declared axes with non-`undefined` values (later overwriting earlier); every
other incoming prop lands unchanged, in order, in the direct-props bucket;
and the variant flag is raised iff some incoming prop hit a declared axis
with a defined value. -/
theorem styled_active_precedence (cfg : StyledConfig)
    (ambient : Option ActiveVariants) (incoming : List (String × PVal))
    (hN : (incoming.map Prod.fst).Nodup)
    (hC : ((contextVariantsOf cfg ambient).map Prod.fst).Nodup) :
    (∀ k, (partitionProps cfg ambient incoming).activeVariants.lookup k =
      match incoming.lookup k with
      | some v =>
        if cfg.variantKeys.contains k ∧ v ≠ PVal.undef then some v
        else ((contextVariantsOf cfg ambient).lookup k).or
          ((cfg.defaultVariants.getD []).lookup k)
      | none =>
        ((contextVariantsOf cfg ambient).lookup k).or
          ((cfg.defaultVariants.getD []).lookup k)) ∧
    (partitionProps cfg ambient incoming).directProps =
      incoming.filter
        (fun kv => ¬(cfg.variantKeys.contains kv.1 ∧ kv.2 ≠ PVal.undef)) ∧
    ((partitionProps cfg ambient incoming).hasVariantProps = true ↔
      ∃ kv ∈ incoming, cfg.variantKeys.contains kv.1 ∧ kv.2 ≠ PVal.undef) := by
  obtain ⟨h1, h2, h3⟩ := partition_fold cfg.variantKeys incoming
    ⟨objSpread (cfg.defaultVariants.getD []) (contextVariantsOf cfg ambient),
     [], false⟩
  have hmatch_nodup : ((incoming.filter
      (fun kv => cfg.variantKeys.contains kv.1 ∧ kv.2 ≠ PVal.undef)).map
      Prod.fst).Nodup :=
    ((List.filter_sublist incoming).map Prod.fst).nodup hN
  have hnon_nodup : ((incoming.filter
      (fun kv => ¬(cfg.variantKeys.contains kv.1 ∧ kv.2 ≠ PVal.undef))).map
      Prod.fst).Nodup :=
    ((List.filter_sublist incoming).map Prod.fst).nodup hN
  refine ⟨?_, ?_, ?_⟩
  · intro k
    show (incoming.foldl (partitionStep cfg.variantKeys)
      ⟨objSpread (cfg.defaultVariants.getD []) (contextVariantsOf cfg ambient),
       [], false⟩).activeVariants.lookup k = _
    rw [h1, lookup_objSpread, lookup_reverse_of_nodup _ _ hmatch_nodup,
      lookup_filter_of_nodup _ _ _ hN, orElse_thunk_eq_or, lookup_objSpread,
      lookup_reverse_of_nodup _ _ hC, orElse_thunk_eq_or]
    cases hik : incoming.lookup k with
    | none => simp
    | some v =>
      by_cases hv : cfg.variantKeys.contains k ∧ v ≠ PVal.undef
      · have hmem : k ∈ cfg.variantKeys := by simpa using hv.1
        simp [hv, hmem]
      · by_cases hm : k ∈ cfg.variantKeys
        · have hvu : v = PVal.undef := by
            by_contra hne
            exact hv ⟨by simpa using hm, hne⟩
          simp [hv, hm, hvu]
        · simp [hv, hm]
  · show (incoming.foldl (partitionStep cfg.variantKeys)
      ⟨objSpread (cfg.defaultVariants.getD []) (contextVariantsOf cfg ambient),
       [], false⟩).directProps = _
    rw [h2]
    exact objSpread_nil_of_nodup _ hnon_nodup
  · show (incoming.foldl (partitionStep cfg.variantKeys)
      ⟨objSpread (cfg.defaultVariants.getD []) (contextVariantsOf cfg ambient),
       [], false⟩).hasVariantProps = true ↔ _
    rw [h3]
    simp

/-- Witness for C4 at a concrete input: with `defaultVariants {size: sm}`,
ambient `{size: md}` and incoming `{size: lg, id: x}`, the active `size`
comes from the incoming prop, `id` goes to the direct bucket, and the
variant flag is raised. -/
theorem styled_active_precedence_witness :
    (partitionProps
        ⟨none, none, some [("size", [])], some [("size", PVal.strV "sm")], none⟩
        (some [("size", PVal.strV "md")])
        [("size", PVal.strV "lg"), ("id", PVal.strV "x")]).activeVariants.lookup
        "size" = some (PVal.strV "lg") ∧
      (partitionProps
        ⟨none, none, some [("size", [])], some [("size", PVal.strV "sm")], none⟩
        (some [("size", PVal.strV "md")])
        [("size", PVal.strV "lg"), ("id", PVal.strV "x")]).directProps =
        [("id", PVal.strV "x")] ∧
      (partitionProps
        ⟨none, none, some [("size", [])], some [("size", PVal.strV "sm")], none⟩
        (some [("size", PVal.strV "md")])
        [("size", PVal.strV "lg"), ("id", PVal.strV "x")]).hasVariantProps =
        true := by
  have h := styled_active_precedence
    ⟨none, none, some [("size", [])], some [("size", PVal.strV "sm")], none⟩
    (some [("size", PVal.strV "md")])
    [("size", PVal.strV "lg"), ("id", PVal.strV "x")] (by decide) (by decide)
  refine ⟨?_, ?_, ?_⟩
  · rw [h.1 "size"]
    decide
  · rw [h.2.1]
    decide
  · exact h.2.2.mpr ⟨("size", PVal.strV "lg"), by decide, by decide⟩

theorem hasVariantProps_iff (cfg : StyledConfig) (ambient : Option ActiveVariants)
    (incoming : List (String × PVal)) :
    (partitionProps cfg ambient incoming).hasVariantProps = true ↔
      ∃ kv ∈ incoming, cfg.variantKeys.contains kv.1 ∧ kv.2 ≠ PVal.undef := by
  obtain ⟨-, -, h3⟩ := partition_fold cfg.variantKeys incoming
    ⟨objSpread (cfg.defaultVariants.getD []) (contextVariantsOf cfg ambient),
     [], false⟩
  show (incoming.foldl (partitionStep cfg.variantKeys)
    ⟨objSpread (cfg.defaultVariants.getD []) (contextVariantsOf cfg ambient),
     [], false⟩).hasVariantProps = true ↔ _
  rw [h3]
  simp

theorem hasDefaults_iff (cfg : StyledConfig) :
    cfg.hasDefaults = true ↔ ∃ d, cfg.defaultVariants = some d ∧ d ≠ [] := by
  unfold StyledConfig.hasDefaults
  cases cfg.defaultVariants with
  | none => simp
  | some d => simp [List.isEmpty_iff]

/-- C1: a render of the (later) styled component wraps the created node in
the bound context's provider iff the component has a bound context and (at
least one incoming prop matched a declared variant axis with a defined
value, or the default-variant map is non-empty); the provided value is the
ActiveSelections map restricted to exactly the axes of the context's
schema; otherwise the node is returned unwrapped. -/
theorem styled_root_election (grp : String → String) (cfg : StyledConfig)
    (ambient : Option ActiveVariants) (incoming : List (String × PVal)) :
    ((styledRender grp cfg ambient incoming).provided.isSome = true ↔
      (cfg.context.isSome = true ∧
        ((∃ kv ∈ incoming, cfg.variantKeys.contains kv.1 ∧ kv.2 ≠ PVal.undef) ∨
          ∃ d, cfg.defaultVariants = some d ∧ d ≠ []))) ∧
    (∀ ctx, cfg.context = some ctx →
      ((∃ kv ∈ incoming, cfg.variantKeys.contains kv.1 ∧ kv.2 ≠ PVal.undef) ∨
          ∃ d, cfg.defaultVariants = some d ∧ d ≠ []) →
      (styledRender grp cfg ambient incoming).provided =
        some ((partitionProps cfg ambient incoming).activeVariants.filter
          (fun kv => ctx.schemaKeys.contains kv.1))) ∧
    (cfg.context = none →
      (styledRender grp cfg ambient incoming).provided = none) := by
  cases hctx : cfg.context with
  | none =>
    have hred : (styledRender grp cfg ambient incoming).provided = none := by
      unfold styledRender
      rw [hctx]
    refine ⟨?_, ?_, fun _ => hred⟩
    · rw [hred]
      simp
    · intro ctx hcc
      exact absurd hcc (by simp)
  | some ctx0 =>
    have hred : (styledRender grp cfg ambient incoming).provided =
        (if (partitionProps cfg ambient incoming).hasVariantProps ||
            cfg.hasDefaults
         then some ((partitionProps cfg ambient incoming).activeVariants.filter
            (fun kv => ctx0.schemaKeys.contains kv.1))
         else none) := by
      unfold styledRender
      rw [hctx]
      dsimp only
      by_cases hcond : (partitionProps cfg ambient incoming).hasVariantProps ||
          cfg.hasDefaults
      · rw [if_pos hcond, if_pos hcond]
      · rw [if_neg hcond, if_neg hcond]
    refine ⟨?_, ?_, ?_⟩
    · rw [hred]
      by_cases hcond : (partitionProps cfg ambient incoming).hasVariantProps ||
          cfg.hasDefaults
      · rw [if_pos hcond]
        simp only [Option.isSome_some, Option.isSome_none, true_iff, true_and]
        rcases Bool.or_eq_true_iff.mp hcond with hv | hd
        · exact Or.inl ((hasVariantProps_iff cfg ambient incoming).mp hv)
        · exact Or.inr ((hasDefaults_iff cfg).mp hd)
      · rw [if_neg hcond]
        simp only [Option.isSome_none, Bool.false_eq_true, false_iff, not_and,
          not_or]
        intro _
        constructor
        · intro hex
          exact absurd (Bool.or_eq_true_iff.mpr
            (Or.inl ((hasVariantProps_iff cfg ambient incoming).mpr hex))) hcond
        · intro hex
          exact absurd (Bool.or_eq_true_iff.mpr
            (Or.inr ((hasDefaults_iff cfg).mpr hex))) hcond
    · intro ctx hcc hdisj
      have hcx : ctx = ctx0 := (Option.some.inj hcc).symm
      subst hcx
      rw [hred]
      rw [if_pos]
      rcases hdisj with hv | hd
      · exact Bool.or_eq_true_iff.mpr
          (Or.inl ((hasVariantProps_iff cfg ambient incoming).mpr hv))
      · exact Bool.or_eq_true_iff.mpr (Or.inr ((hasDefaults_iff cfg).mpr hd))
    · intro hcc
      exact Option.noConfusion hcc

/-- Witness for C1 at a concrete input: a context-bound component with
non-empty defaults and no incoming props wraps, providing only the schema
axis (the local axis `local` stays out of the provided value). -/
theorem styled_root_election_witness :
    (styledRender id
        ⟨some ⟨["size"]⟩, none,
         some [("size", []), ("local", [])],
         some [("size", PVal.strV "md"), ("local", PVal.strV "on")], none⟩
        none []).provided =
      some [("size", PVal.strV "md")] := by
  have h := (styled_root_election id
    ⟨some ⟨["size"]⟩, none,
     some [("size", []), ("local", [])],
     some [("size", PVal.strV "md"), ("local", PVal.strV "on")], none⟩
    none []).2.1 ⟨["size"]⟩ rfl
    (Or.inr ⟨[("size", PVal.strV "md"), ("local", PVal.strV "on")], rfl,
      by decide⟩)
  rw [h]
  decide

/-- C10 counterexample: a component bound to a context with schema axis
`size`, a non-empty default-variant map and no incoming props renders
unwrapped under the first implementation but wrapped (providing the
defaulted `size`) under the second — the two implementations are not
observationally equivalent. -/
theorem styled_implementations_differ :
    (styledRenderV1 id
        ⟨some ⟨["size"]⟩, none,
         some [("size", [("md", [("className", PVal.strV "s-md")])])],
         some [("size", PVal.strV "md")], none⟩
        none []).provided = none ∧
      (styledRender id
        ⟨some ⟨["size"]⟩, none,
         some [("size", [("md", [("className", PVal.strV "s-md")])])],
         some [("size", PVal.strV "md")], none⟩
        none []).provided = some [("size", PVal.strV "md")] ∧
      (none : Option ActiveVariants) ≠ some [("size", PVal.strV "md")] := by
  refine ⟨by decide, by decide, by decide⟩

/-- C10 (amended): the two styled-factory implementations always produce
the same final element (identical final props for every configuration,
ambient value and incoming props), and they are fully observationally
equivalent whenever the component has no bound context; with a bound
context they differ exactly in the provider step: the earlier wraps iff a
variant prop was received, providing the unfiltered ActiveSelections, while
the later also wraps on non-empty defaults and filters the provided value
to the schema axes. -/
theorem styled_implementations_amended (grp : String → String)
    (cfg : StyledConfig) (ambient : Option ActiveVariants)
    (incoming : List (String × PVal)) :
    (styledRenderV1 grp cfg ambient incoming).finalProps =
      (styledRender grp cfg ambient incoming).finalProps ∧
    (cfg.context = none →
      styledRenderV1 grp cfg ambient incoming =
        styledRender grp cfg ambient incoming) ∧
    (∀ ctx, cfg.context = some ctx →
      (styledRenderV1 grp cfg ambient incoming).provided =
        (if (partitionProps cfg ambient incoming).hasVariantProps
         then some (partitionProps cfg ambient incoming).activeVariants
         else none) ∧
      (styledRender grp cfg ambient incoming).provided =
        (if (partitionProps cfg ambient incoming).hasVariantProps ||
            cfg.hasDefaults
         then some ((partitionProps cfg ambient incoming).activeVariants.filter
            (fun kv => ctx.schemaKeys.contains kv.1))
         else none)) := by
  cases hctx : cfg.context with
  | none =>
    have h1 : styledRenderV1 grp cfg ambient incoming =
        styledRender grp cfg ambient incoming := by
      unfold styledRenderV1 styledRender
      rw [hctx]
    refine ⟨by rw [h1], fun _ => h1, ?_⟩
    intro ctx hcc
    exact absurd hcc (by simp)
  | some ctx0 =>
    have hv1 : (styledRenderV1 grp cfg ambient incoming).provided =
        (if (partitionProps cfg ambient incoming).hasVariantProps
         then some (partitionProps cfg ambient incoming).activeVariants
         else none) := by
      unfold styledRenderV1
      rw [hctx]
      dsimp only
      by_cases hcond : (partitionProps cfg ambient incoming).hasVariantProps
      · rw [if_pos hcond, if_pos hcond]
      · rw [if_neg hcond, if_neg hcond]
    have hv2 : (styledRender grp cfg ambient incoming).provided =
        (if (partitionProps cfg ambient incoming).hasVariantProps ||
            cfg.hasDefaults
         then some ((partitionProps cfg ambient incoming).activeVariants.filter
            (fun kv => ctx0.schemaKeys.contains kv.1))
         else none) := by
      unfold styledRender
      rw [hctx]
      dsimp only
      by_cases hcond : (partitionProps cfg ambient incoming).hasVariantProps ||
          cfg.hasDefaults
      · rw [if_pos hcond, if_pos hcond]
      · rw [if_neg hcond, if_neg hcond]
    have hf1 : (styledRenderV1 grp cfg ambient incoming).finalProps =
        finalPropsOf grp cfg (partitionProps cfg ambient incoming) := by
      unfold styledRenderV1
      rw [hctx]
      dsimp only
      by_cases hcond : (partitionProps cfg ambient incoming).hasVariantProps
      · rw [if_pos hcond]
      · rw [if_neg hcond]
    have hf2 : (styledRender grp cfg ambient incoming).finalProps =
        finalPropsOf grp cfg (partitionProps cfg ambient incoming) := by
      unfold styledRender
      rw [hctx]
      dsimp only
      by_cases hcond : (partitionProps cfg ambient incoming).hasVariantProps ||
          cfg.hasDefaults
      · rw [if_pos hcond]
      · rw [if_neg hcond]
    refine ⟨by rw [hf1, hf2], ?_, ?_⟩
    · intro hcc
      exact absurd hcc (by simp)
    · intro ctx hcc
      have hcx : ctx = ctx0 := (Option.some.inj hcc).symm
      subst hcx
      exact ⟨hv1, hv2⟩

/-- Witness for C10 (amended) at concrete inputs: without a context the two
implementations agree on the whole render; at the counterexample
configuration both still produce the same final props. -/
theorem styled_implementations_amended_witness :
    styledRenderV1 id ⟨none, none, some [("size", [])], none, none⟩ none
        [("size", PVal.strV "md")] =
      styledRender id ⟨none, none, some [("size", [])], none, none⟩ none
        [("size", PVal.strV "md")] ∧
    (styledRenderV1 id
        ⟨some ⟨["size"]⟩, none,
         some [("size", [("md", [("className", PVal.strV "s-md")])])],
         some [("size", PVal.strV "md")], none⟩
        none []).finalProps =
      (styledRender id
        ⟨some ⟨["size"]⟩, none,
         some [("size", [("md", [("className", PVal.strV "s-md")])])],
         some [("size", PVal.strV "md")], none⟩
        none []).finalProps := by
  constructor
  · exact (styled_implementations_amended id
      ⟨none, none, some [("size", [])], none, none⟩ none
      [("size", PVal.strV "md")]).2.1 rfl
  · exact (styled_implementations_amended id
      ⟨some ⟨["size"]⟩, none,
       some [("size", [("md", [("className", PVal.strV "s-md")])])],
       some [("size", PVal.strV "md")], none⟩ none []).1

/-! ## Infrastructure for observational comparison of merged outputs -/

theorem runSeq_append {σ : Type _} (env : FnEnv σ) (xs ys : List FnRep)
    (hys : ys ≠ []) (s : σ) (args : List PVal) :
    FnRep.runSeq env (xs ++ ys) s args =
      FnRep.runSeq env ys (FnRep.runSeq env xs s args).1 args := by
  induction xs generalizing s with
  | nil =>
    show FnRep.runSeq env ys s args =
      FnRep.runSeq env ys (FnRep.runSeq env [] s args).1 args
    rfl
  | cons x xs ih =>
    cases ys with
    | nil => exact absurd rfl hys
    | cons y ys2 =>
      cases xs with
      | nil =>
        show FnRep.runSeq env (x :: y :: ys2) s args = _
        rw [show FnRep.runSeq env (x :: y :: ys2) s args =
          FnRep.runSeq env (y :: ys2) (FnRep.run env x s args).1 args from rfl]
        rfl
      | cons x2 xs2 =>
        show FnRep.runSeq env (x :: (x2 :: xs2 ++ y :: ys2)) s args = _
        rw [show FnRep.runSeq env (x :: (x2 :: xs2 ++ y :: ys2)) s args =
          FnRep.runSeq env (x2 :: xs2 ++ y :: ys2)
            (FnRep.run env x s args).1 args from rfl]
        rw [ih]
        rfl

theorem run_comp_cons_comp {σ : Type _} (env : FnEnv σ) (xs ys : List FnRep)
    (s : σ) (args : List PVal) :
    FnRep.run env (.comp (.comp xs :: ys)) s args =
      FnRep.run env (.comp (xs ++ ys)) s args := by
  cases ys with
  | nil =>
    show FnRep.runSeq env [FnRep.comp xs] s args =
      FnRep.runSeq env (xs ++ []) s args
    rw [List.append_nil]
    rfl
  | cons y ys2 =>
    show FnRep.runSeq env (FnRep.comp xs :: y :: ys2) s args =
      FnRep.runSeq env (xs ++ y :: ys2) s args
    rw [runSeq_append env xs (y :: ys2) (by simp) s args]
    rfl

theorem filterMap_asFn_map_fnV (gs : List FnRep) :
    (gs.map PVal.fnV).filterMap PVal.asFn = gs := by
  induction gs with
  | nil => rfl
  | cons g rest ih => simp [PVal.asFn, ih]

/-- The function value `mergeFinalProps` stores for a key with the callable
list `gs`. -/
def cf (gs : List FnRep) : FnRep :=
  composeFunctions (gs.map PVal.fnV)

theorem cf_single (f : FnRep) : cf [f] = f := rfl

theorem cf_cons_cons (x y : FnRep) (rest : List FnRep) :
    cf (x :: y :: rest) = .comp (x :: y :: rest) := by
  unfold cf composeFunctions
  rw [filterMap_asFn_map_fnV]

theorem cf_group_runEq {σ : Type _} (env : FnEnv σ) (fs cs : List FnRep)
    (hfs : fs ≠ []) (s : σ) (args : List PVal) :
    FnRep.run env (cf (cf fs :: cs)) s args =
      FnRep.run env (cf (fs ++ cs)) s args := by
  cases fs with
  | nil => exact absurd rfl hfs
  | cons f1 fs2 =>
    cases fs2 with
    | nil => rw [cf_single]; rfl
    | cons f2 fs3 =>
      cases cs with
      | nil =>
        rw [List.append_nil, cf_single]
      | cons c1 cs2 =>
        rw [cf_cons_cons f1 f2 fs3,
          cf_cons_cons (FnRep.comp (f1 :: f2 :: fs3)) c1 cs2,
          show (f1 :: f2 :: fs3) ++ c1 :: cs2 =
            f1 :: f2 :: (fs3 ++ c1 :: cs2) from rfl,
          cf_cons_cons]
        exact run_comp_cons_comp env (f1 :: f2 :: fs3) (c1 :: cs2) s args

/-- Observational equality of prop values: function values are compared by
their call behaviour under every environment, everything else structurally. -/
def PVal.obsEq (a b : PVal) : Prop :=
  match a, b with
  | .fnV g, .fnV h =>
    ∀ (σ : Type) (env : FnEnv σ) (s : σ) (args : List PVal),
      FnRep.run env g s args = FnRep.run env h s args
  | a, b => a = b

theorem obsEq_refl (a : PVal) : a.obsEq a := by
  cases a <;> try rfl
  intro σ env s args
  rfl

theorem obsEq_of_eq {a b : PVal} (h : a = b) : a.obsEq b := h ▸ obsEq_refl a

/-- Observational equality lifted to optional values. -/
def optObsEq : Option PVal → Option PVal → Prop
  | some a, some b => a.obsEq b
  | none, none => True
  | _, _ => False

theorem optObsEq_of_eq {a b : Option PVal} (h : a = b) : optObsEq a b := by
  subst h
  cases a with
  | none => trivial
  | some v => exact obsEq_refl v

/-- Field-for-field equality of two fragments, with function-valued fields
compared by observable call behaviour. -/
def FieldEqv (f g : Frag) : Prop :=
  ∀ k, optObsEq (f.lookup k) (g.lookup k)

/-- A fragment that never touches the `style` key. -/
def noStyleKey (f : Frag) : Prop :=
  ∀ kv ∈ f, kv.1 ≠ "style"

/-! ## Token-level lemmas about the class-name merger -/

theorem splitOnP_mem_not {α : Type _} (p : α → Bool) (l : List α) :
    ∀ piece ∈ l.splitOnP p, ∀ x ∈ piece, p x = false := by
  induction l with
  | nil =>
    rw [List.splitOnP_nil]
    intro piece hp x hx
    rw [List.mem_singleton] at hp
    subst hp
    simp at hx
  | cons a as ih =>
    rw [List.splitOnP_cons]
    by_cases hpa : p a
    · rw [if_pos hpa]
      intro piece hp x hx
      rcases List.mem_cons.mp hp with h | h
      · subst h; simp at hx
      · exact ih piece h x hx
    · rw [if_neg hpa]
      cases hsp : as.splitOnP p with
      | nil => exact absurd hsp (List.splitOnP_ne_nil p as)
      | cons hd tl =>
        rw [List.modifyHead_cons]
        intro piece hp x hx
        rcases List.mem_cons.mp hp with h | h
        · subst h
          rcases List.mem_cons.mp hx with hxa | hxh
          · subst hxa
            exact Bool.eq_false_iff.mpr hpa
          · exact ih hd (by rw [hsp]; exact List.mem_cons_self hd tl) x hxh
        · exact ih piece (by rw [hsp]; exact List.mem_cons_of_mem hd h) x hx

/-- A token is well-formed when it is non-empty and contains no space. -/
def goodToken (t : String) : Prop := t.data ≠ [] ∧ ' ' ∉ t.data

theorem splitTokens_good (s : String) : ∀ t ∈ splitTokens s, goodToken t := by
  intro t ht
  unfold splitTokens at ht
  obtain ⟨l, hl, hmk⟩ := List.mem_map.mp ht
  have hl2 := List.mem_filter.mp hl
  refine ⟨?_, ?_⟩
  · rw [← hmk]
    simpa using hl2.2
  · rw [← hmk]
    intro hsp
    have := splitOnP_mem_not (· == ' ') s.data l hl2.1 ' ' hsp
    simp at this

theorem splitTokens_joinTokens (ts : List String) (hts : ts ≠ [])
    (hgood : ∀ t ∈ ts, goodToken t) : splitTokens (joinTokens ts) = ts := by
  unfold splitTokens joinTokens
  have hdata : (String.mk ([' '].intercalate (ts.map String.data))).data =
      [' '].intercalate (ts.map String.data) := rfl
  rw [hdata]
  rw [List.splitOn_intercalate (ts.map String.data) ' '
    (by
      intro l hl
      obtain ⟨t, htm, hteq⟩ := List.mem_map.mp hl
      rw [← hteq]
      exact (hgood t htm).2)
    (by simpa using hts)]
  rw [List.filter_eq_self.mpr
    (by
      intro l hl
      obtain ⟨t, htm, hteq⟩ := List.mem_map.mp hl
      rw [← hteq]
      simpa using (hgood t htm).1)]
  rw [List.map_map]
  have : (fun l => String.mk l) ∘ String.data = fun t => t := by
    funext t
    rfl
  rw [this]
  exact List.map_id ts

theorem keepLast_subset (grp : String → String) (l : List String) :
    ∀ t ∈ keepLast grp l, t ∈ l := by
  induction l with
  | nil => intro t ht; simp [keepLast] at ht
  | cons a as ih =>
    intro t ht
    unfold keepLast at ht
    by_cases h : as.any (fun u => grp u = grp a)
    · rw [if_pos h] at ht
      exact List.mem_cons_of_mem a (ih t ht)
    · rw [if_neg h] at ht
      rcases List.mem_cons.mp ht with heq | hmem
      · exact heq ▸ List.mem_cons_self a as
      · exact List.mem_cons_of_mem a (ih t hmem)

theorem keepLast_eq_nil_iff (grp : String → String) (l : List String) :
    keepLast grp l = [] ↔ l = [] := by
  induction l with
  | nil => simp [keepLast]
  | cons a as ih =>
    constructor
    · intro h
      unfold keepLast at h
      by_cases hd : as.any (fun u => grp u = grp a)
      · rw [if_pos hd] at h
        have := ih.mp h
        subst this
        simp at hd
      · rw [if_neg hd] at h
        exact absurd h (by simp)
    · intro h
      exact absurd h (by simp)

theorem any_grp_keepLast (grp : String → String) (l : List String) (c : String) :
    (keepLast grp l).any (fun u => grp u = c) = l.any (fun u => grp u = c) := by
  induction l with
  | nil => rfl
  | cons a as ih =>
    unfold keepLast
    by_cases hd : as.any (fun u => grp u = grp a)
    · rw [if_pos hd, ih]
      by_cases hac : grp a = c
      · have : as.any (fun u => decide (grp u = c)) = true := by
          obtain ⟨u, hu, hgu⟩ := List.any_eq_true.mp hd
          exact List.any_eq_true.mpr ⟨u, hu,
            by simp at hgu ⊢; rw [hgu, hac]⟩
        simp only [List.any_cons, this, Bool.or_true]
      · simp only [List.any_cons]
        have : (decide (grp a = c)) = false := by simp [hac]
        rw [this, Bool.false_or]
    · rw [if_neg hd]
      simp only [List.any_cons, ih]

theorem keepLast_cons (grp : String → String) (t : String) (ts : List String) :
    keepLast grp (t :: ts) =
      if ts.any (fun u => grp u = grp t) then keepLast grp ts
      else t :: keepLast grp ts := rfl

theorem keepLast_append_keepLast (grp : String → String) (xs ys : List String) :
    keepLast grp (keepLast grp xs ++ ys) = keepLast grp (xs ++ ys) := by
  induction xs with
  | nil => rfl
  | cons t ts ih =>
    by_cases hd : ts.any (fun u => grp u = grp t)
    · rw [keepLast_cons, if_pos hd, ih, List.cons_append, keepLast_cons,
        if_pos (by
          obtain ⟨u, hu, hgu⟩ := List.any_eq_true.mp hd
          exact List.any_eq_true.mpr ⟨u, List.mem_append_left ys hu, hgu⟩)]
    · rw [keepLast_cons, if_neg hd, List.cons_append]
      by_cases hy : ys.any (fun u => grp u = grp t)
      · rw [keepLast_cons,
          if_pos (by
            obtain ⟨u, hu, hgu⟩ := List.any_eq_true.mp hy
            exact List.any_eq_true.mpr ⟨u, List.mem_append_right _ hu, hgu⟩),
          ih, List.cons_append, keepLast_cons,
          if_pos (by
            obtain ⟨u, hu, hgu⟩ := List.any_eq_true.mp hy
            exact List.any_eq_true.mpr ⟨u, List.mem_append_right ts hu, hgu⟩)]
      · have hkts : (keepLast grp ts ++ ys).any (fun u => grp u = grp t) = false := by
          rw [List.any_append]
          rw [any_grp_keepLast grp ts (grp t)]
          rw [Bool.eq_false_iff.mpr hd, Bool.eq_false_iff.mpr hy]
          rfl
        have htys : ((ts ++ ys).any (fun u => grp u = grp t)) = false := by
          rw [List.any_append]
          rw [Bool.eq_false_iff.mpr hd, Bool.eq_false_iff.mpr hy]
          rfl
        rw [keepLast_cons, if_neg (by rw [hkts]; simp), ih, List.cons_append,
          keepLast_cons, if_neg (by rw [htys]; simp)]

theorem classTokens_append (xs ys : List String) :
    classTokens (xs ++ ys) = classTokens xs ++ classTokens ys := by
  simp [classTokens]

theorem classTokens_good (inputs : List String) :
    ∀ t ∈ classTokens inputs, goodToken t := by
  intro t ht
  obtain ⟨s, _, hts⟩ := List.mem_flatMap.mp ht
  exact splitTokens_good s t hts

theorem cn_eq_of_tokens {grp : String → String} {xs ys : List String}
    (h : classTokens xs = classTokens ys) : cn grp xs = cn grp ys := by
  unfold cn
  rw [h]

theorem cn_eq_none_iff (grp : String → String) (xs : List String) :
    cn grp xs = none ↔ classTokens xs = [] := by
  unfold cn
  cases hk : keepLast grp (classTokens xs) with
  | nil => simp [(keepLast_eq_nil_iff grp (classTokens xs)).mp hk]
  | cons t ts =>
    constructor
    · intro h
      exact Option.noConfusion h
    · intro h
      rw [h] at hk
      exact absurd hk (by simp [keepLast])

theorem cn_eq_some (grp : String → String) (xs : List String) (s : String)
    (h : cn grp xs = some s) :
    keepLast grp (classTokens xs) ≠ [] ∧
      s = joinTokens (keepLast grp (classTokens xs)) := by
  unfold cn at h
  cases hk : keepLast grp (classTokens xs) with
  | nil =>
    rw [hk] at h
    exact Option.noConfusion h
  | cons t ts =>
    rw [hk] at h
    exact ⟨by simp, (Option.some.inj h).symm⟩

theorem cn_cons_of_some (grp : String → String) (xs ys : List String) (s : String)
    (h : cn grp xs = some s) :
    cn grp (s :: ys) = cn grp (xs ++ ys) := by
  obtain ⟨hne, hs⟩ := cn_eq_some grp xs s h
  have hsplit : splitTokens s = keepLast grp (classTokens xs) := by
    rw [hs]
    exact splitTokens_joinTokens _ hne
      (fun t ht => classTokens_good xs t (keepLast_subset grp _ t ht))
  have htoks : classTokens (s :: ys) =
      keepLast grp (classTokens xs) ++ classTokens ys := by
    show splitTokens s ++ classTokens ys = _
    rw [hsplit]
  unfold cn
  rw [htoks, keepLast_append_keepLast, classTokens_append]

theorem cn_append_left_nil (grp : String → String) (xs ys : List String)
    (h : cn grp xs = none) : cn grp ys = cn grp (xs ++ ys) := by
  apply cn_eq_of_tokens
  rw [classTokens_append, (cn_eq_none_iff grp xs).mp h, List.nil_append]

/-! ## Key-local filter maps over a fragment with distinct keys -/

theorem filterMap_keyOnly_none {β : Type _} (k : String)
    (F : String × PVal → Option β)
    (hF : ∀ kv : String × PVal, kv.1 ≠ k → F kv = none)
    (f : Frag) (hlk : f.lookup k = none) :
    f.filterMap F = [] := by
  rw [List.filterMap_eq_nil_iff]
  intro kv hkv
  by_cases hk : kv.1 = k
  · exfalso
    rw [lookup_eq_none_iff] at hlk
    exact hlk (hk ▸ List.mem_map_of_mem Prod.fst hkv)
  · exact hF kv hk

theorem filterMap_keyOnly_some {β : Type _} (k : String)
    (F : String × PVal → Option β)
    (hF : ∀ kv : String × PVal, kv.1 ≠ k → F kv = none)
    (f : Frag) :
    (f.map Prod.fst).Nodup → ∀ v, f.lookup k = some v →
      f.filterMap F = (F (k, v)).toList := by
  induction f with
  | nil =>
    intro _ v hlk
    exact Option.noConfusion hlk
  | cons p rest ih =>
    intro hnd v hlk
    obtain ⟨a, w⟩ := p
    rw [List.map_cons, List.nodup_cons] at hnd
    by_cases hak : a = k
    · subst hak
      rw [lookup_cons_eq] at hlk
      have hv : w = v := Option.some.inj hlk
      subst hv
      have hrfm : rest.filterMap F = [] :=
        filterMap_keyOnly_none a F hF rest
          ((lookup_eq_none_iff rest a).mpr hnd.1)
      rw [List.filterMap_cons, hrfm]
      cases F (a, w) <;> rfl
    · rw [lookup_cons_ne (fun h => hak h.symm)] at hlk
      rw [List.filterMap_cons, hF (a, w) hak]
      exact ih hnd.2 v hlk

/-! ## Shape facts about the per-entry accumulator contributions -/

theorem fnAdd_ne_key (k : String) (kv : String × PVal) (h : kv.1 ≠ k) :
    fnAdd k kv = none := by
  unfold fnAdd
  rw [if_neg h]

theorem propWrite_ne_key (k : String) (kv : String × PVal) (h : kv.1 ≠ k) :
    propWrite k kv = none := by
  unfold propWrite
  rw [if_neg h]

theorem fnAdd_none_of_asFn (k a : String) (v : PVal) (h : v.asFn = none) :
    fnAdd k (a, v) = none := by
  unfold fnAdd
  split
  · split
    · rfl
    · split
      · rfl
      · cases v <;> first | rfl | simp [PVal.asFn] at h
  · rfl

theorem classAdd_none_of_not_str (a : String) (v : PVal)
    (h : ∀ s, v ≠ PVal.strV s) : classAdd (a, v) = none := by
  unfold classAdd
  split
  · rfl
  · split
    · rfl
    · cases v <;> first | rfl | exact absurd rfl (h _)

theorem classAdd_none_of_key (a : String) (v : PVal) (h : a ≠ "className") :
    classAdd (a, v) = none := by
  unfold classAdd
  split
  · rfl
  · split
    · rfl
    · cases v <;> first | rfl | rw [if_neg h]

theorem styleAdd_none_of_ne (a : String) (v : PVal) (h : a ≠ "style") :
    styleAdd (a, v) = none := by
  unfold styleAdd
  split
  · rfl
  · rw [if_neg (fun hc => h hc.1)]

theorem propWrite_some_shape (k a : String) (v w : PVal)
    (h : propWrite k (a, v) = some w) :
    w.asFn = none ∧ (k = "className" → ∀ s, w ≠ PVal.strV s) := by
  by_cases h1 : a = k
  · subst h1
    cases v with
    | undef => simp [propWrite] at h
    | fnV g =>
      by_cases h2 : a = "style" ∧ (PVal.fnV g).truthy = true <;>
        simp [propWrite, h2] at h
    | strV s =>
      by_cases h2 : a = "style" ∧ (PVal.strV s).truthy = true
      · simp [propWrite, h2] at h
      · by_cases h3 : a = "className"
        · simp [propWrite, h2, h3] at h
        · simp [propWrite, h2, h3] at h
          subst h
          exact ⟨rfl, fun hk => absurd hk h3⟩
    | null =>
      by_cases h2 : a = "style" ∧ PVal.null.truthy = true
      · simp [propWrite, h2] at h
      · simp [propWrite, h2] at h
        subst h
        exact ⟨rfl, fun _ s hs => PVal.noConfusion hs⟩
    | boolV b =>
      by_cases h2 : a = "style" ∧ (PVal.boolV b).truthy = true
      · simp [propWrite, h2] at h
      · simp [propWrite, h2] at h
        subst h
        exact ⟨rfl, fun _ s hs => PVal.noConfusion hs⟩
    | numV n =>
      by_cases h2 : a = "style" ∧ (PVal.numV n).truthy = true
      · simp [propWrite, h2] at h
      · simp [propWrite, h2] at h
        subst h
        exact ⟨rfl, fun _ s hs => PVal.noConfusion hs⟩
    | arr xs =>
      by_cases h2 : a = "style" ∧ (PVal.arr xs).truthy = true
      · simp [propWrite, h2] at h
      · simp [propWrite, h2] at h
        subst h
        exact ⟨rfl, fun _ s hs => PVal.noConfusion hs⟩
    | pobj m =>
      by_cases h2 : a = "style" ∧ (PVal.pobj m).truthy = true
      · simp [propWrite, h2] at h
      · simp [propWrite, h2] at h
        subst h
        exact ⟨rfl, fun _ s hs => PVal.noConfusion hs⟩
    | exotic t =>
      by_cases h2 : a = "style" ∧ (PVal.exotic t).truthy = true
      · simp [propWrite, h2] at h
      · simp [propWrite, h2] at h
        subst h
        exact ⟨rfl, fun _ s hs => PVal.noConfusion hs⟩
  · simp [propWrite, h1] at h

/-! ## Distinctness of the merged output's keys -/

theorem nodup_keys_foldl_objSet {β γ : Type _} (l : List (String × γ))
    (f : String × γ → β) (m : List (String × β))
    (hm : (m.map Prod.fst).Nodup) :
    ((l.foldl (fun acc p => objSet acc p.1 (f p)) m).map Prod.fst).Nodup := by
  induction l generalizing m with
  | nil => exact hm
  | cons p rest ih =>
    exact ih (objSet m p.1 (f p)) (nodup_keys_objSet m p.1 (f p) hm)

theorem nodup_styleWritten (st : MergeState)
    (h : (st.finalProps.map Prod.fst).Nodup) :
    ((styleWritten st).map Prod.fst).Nodup := by
  unfold styleWritten
  cases mergeStyles st.allStyles with
  | none => exact h
  | some v => exact nodup_keys_objSet _ _ _ h

theorem nodup_classWritten (grp : String → String) (st : MergeState)
    (h : (st.finalProps.map Prod.fst).Nodup) :
    ((classWritten grp st).map Prod.fst).Nodup := by
  unfold classWritten
  cases cn grp st.allClassNames with
  | none => exact nodup_styleWritten st h
  | some s => exact nodup_keys_objSet _ _ _ (nodup_styleWritten st h)

theorem mergeFinalProps_nodup (grp : String → String)
    (srcs : List (Option Frag)) :
    ((mergeFinalProps grp srcs).map Prod.fst).Nodup := by
  unfold mergeFinalProps mergeFinish
  rw [foldSrcs_eq_foldEntries]
  apply nodup_keys_foldl_objSet
  apply nodup_classWritten
  exact fold_nodup_final _ _ (by simp [MergeState.init])

theorem fnAdd_self_fnV (k : String) (g : FnRep) (hs : k ≠ "style") :
    fnAdd k (k, PVal.fnV g) = some g := by
  unfold fnAdd
  rw [if_pos rfl, if_neg (fun hc => PVal.noConfusion hc),
    if_neg (fun hc => hs hc.1)]

theorem propWrite_self_fnV (k : String) (g : FnRep) (hs : k ≠ "style") :
    propWrite k (k, PVal.fnV g) = none := by
  unfold propWrite
  rw [if_pos rfl, if_neg (fun hc => PVal.noConfusion hc),
    if_neg (fun hc => hs hc.1)]

theorem classAdd_self_str (s : String) :
    classAdd ("className", PVal.strV s) = some s := by
  unfold classAdd
  dsimp only
  rw [if_neg (fun hc => PVal.noConfusion hc),
    if_neg (fun hc => absurd hc.1 (by decide)), if_pos rfl]

theorem fnAdd_className_str (s : String) :
    fnAdd "className" ("className", PVal.strV s) = none := by
  unfold fnAdd
  dsimp only
  rw [if_pos rfl, if_neg (fun hc => PVal.noConfusion hc),
    if_neg (fun hc => absurd hc.1 (by decide))]

theorem propWrite_className_str (s : String) :
    propWrite "className" ("className", PVal.strV s) = none := by
  unfold propWrite
  dsimp only
  rw [if_pos rfl, if_neg (fun hc => PVal.noConfusion hc),
    if_neg (fun hc => absurd hc.1 (by decide)), if_pos rfl]

theorem propWrite_className_self (w : PVal) (hu : w ≠ PVal.undef)
    (hf : w.asFn = none) (hns : ∀ s, w ≠ PVal.strV s) :
    propWrite "className" ("className", w) = some w := by
  unfold propWrite
  dsimp only
  rw [if_pos rfl, if_neg hu, if_neg (fun hc => absurd hc.1 (by decide))]
  cases w with
  | undef => exact absurd rfl hu
  | strV s => exact absurd rfl (hns s)
  | fnV g => simp [PVal.asFn] at hf
  | null => rfl
  | boolV b => rfl
  | numV n => rfl
  | arr xs => rfl
  | pobj m => rfl
  | exotic t => rfl

theorem styleFree_filterMaps (l : Frag) (hl : ∀ kv ∈ l, kv.1 ≠ "style") :
    l.filterMap (fnAdd "style") = [] ∧ l.filterMap styleAdd = [] ∧
      l.filterMap (propWrite "style") = [] := by
  refine ⟨?_, ?_, ?_⟩
  · rw [List.filterMap_eq_nil_iff]
    intro kv hkv
    exact fnAdd_ne_key _ kv (hl kv hkv)
  · rw [List.filterMap_eq_nil_iff]
    intro kv hkv
    exact styleAdd_none_of_ne kv.1 kv.2 (hl kv hkv)
  · rw [List.filterMap_eq_nil_iff]
    intro kv hkv
    exact propWrite_ne_key _ kv (hl kv hkv)

theorem mergeFinalProps_two_noStyle (grp : String → String) (A B : Frag)
    (hA : noStyleKey A) (hB : noStyleKey B) :
    (mergeFinalProps grp [some A, some B]).lookup "style" = none := by
  have hE2 : mergeEntries [some A, some B] = A ++ B := by simp [mergeEntries]
  have hno : ∀ kv ∈ A ++ B, kv.1 ≠ "style" := fun kv hkv =>
    (List.mem_append.mp hkv).elim (hA kv) (hB kv)
  obtain ⟨h1, h2, h3⟩ := styleFree_filterMaps _ hno
  rw [mergeFinalProps_lookup, hE2, h1, h2, h3]
  simp [show mergeStyles [] = none from rfl]

/-- C8 counterexample: merging is not associative field-for-field. With all
three fragments equal to `{style: {}}`, the nested merge
`mergeFinalProps(mergeFinalProps(A,B),C)` ends with `style = {}` — the inner
merge drops the key (the shallow merge of two empty maps has no keys), so
the outer merge sees a single style input and returns it as-is — while the
flat merge `mergeFinalProps(A,B,C)` emits no `style` key at all. -/
theorem merge_assoc_counterexample :
    (mergeFinalProps (fun c => c)
        [some (mergeFinalProps (fun c => c)
            [some [("style", PVal.pobj [])], some [("style", PVal.pobj [])]]),
          some [("style", PVal.pobj [])]]).lookup "style"
      = some (PVal.pobj []) ∧
    (mergeFinalProps (fun c => c)
        [some [("style", PVal.pobj [])], some [("style", PVal.pobj [])],
          some [("style", PVal.pobj [])]]).lookup "style" = none :=
  ⟨rfl, rfl⟩

/-- C8 (amended): restricted to fragments that never pass a `style` key,
merging is associative — `mergeFinalProps(mergeFinalProps(A,B),C)` equals
`mergeFinalProps(A,B,C)` field-for-field, with function-valued fields
compared by observable call behaviour (the nested side stores a composition
of a composition, which calls the same callables in the same order with the
same results) — and, for any key other than `style`/`className` all of
whose supplied values are non-callable, the rightmost non-`undefined` value
among the sources is the value in the output. Through the `style` channel
associativity fails: `mergeStyles` collapses an empty shallow merge to an
absent key, so a nested merge can resurrect a style the flat merge drops. -/
theorem mergeFinalProps_assoc_amended (grp : String → String) (A B C : Frag)
    (hA : noStyleKey A) (hB : noStyleKey B) (hC : noStyleKey C) :
    FieldEqv
      (mergeFinalProps grp
        [some (mergeFinalProps grp [some A, some B]), some C])
      (mergeFinalProps grp [some A, some B, some C]) ∧
    (∀ p v, p ≠ "style" → p ≠ "className" →
      (∀ kv ∈ A ++ B ++ C, kv.1 = p → kv.2.asFn = none) →
      ((A ++ B ++ C).filterMap
          (fun kv => if kv.1 = p ∧ kv.2 ≠ PVal.undef then some kv.2
            else none)).getLast? = some v →
      (mergeFinalProps grp [some A, some B, some C]).lookup p = some v) := by
  have hE2 : mergeEntries [some A, some B] = A ++ B := by simp [mergeEntries]
  have hE3 : mergeEntries [some A, some B, some C] = A ++ B ++ C := by
    simp [mergeEntries]
  constructor
  · have hEN : mergeEntries
        [some (mergeFinalProps grp [some A, some B]), some C] =
        mergeFinalProps grp [some A, some B] ++ C := by
      simp [mergeEntries]
    have hndAB : ((mergeFinalProps grp [some A, some B]).map Prod.fst).Nodup :=
      mergeFinalProps_nodup grp [some A, some B]
    have hABsty : (mergeFinalProps grp [some A, some B]).lookup "style" =
        none := mergeFinalProps_two_noStyle grp A B hA hB
    intro k
    have hABk := mergeFinalProps_lookup grp [some A, some B] k
    rw [hE2] at hABk
    set AB := mergeFinalProps grp [some A, some B] with hABdef
    by_cases hks : k = "style"
    · subst hks
      obtain ⟨hfC, hsC, hpC⟩ := styleFree_filterMaps C hC
      have hfAB : AB.filterMap (fnAdd "style") = [] :=
        filterMap_keyOnly_none "style" _ (fun kv h => fnAdd_ne_key _ kv h) _
          hABsty
      have hsAB : AB.filterMap styleAdd = [] :=
        filterMap_keyOnly_none "style" _
          (fun kv h => styleAdd_none_of_ne kv.1 kv.2 h) _ hABsty
      have hpAB : AB.filterMap (propWrite "style") = [] :=
        filterMap_keyOnly_none "style" _ (fun kv h => propWrite_ne_key _ kv h)
          _ hABsty
      have hnested : (mergeFinalProps grp [some AB, some C]).lookup "style" =
          none := by
        rw [mergeFinalProps_lookup, hEN, List.filterMap_append,
          List.filterMap_append, List.filterMap_append, hfAB, hfC, hsAB, hsC,
          hpAB, hpC]
        simp [show mergeStyles [] = none from rfl]
      have hdirect : (mergeFinalProps grp [some A, some B, some C]).lookup
          "style" = none := by
        have hno3 : ∀ kv ∈ A ++ B ++ C, kv.1 ≠ "style" := fun kv hkv =>
          (List.mem_append.mp hkv).elim
            (fun h2 => (List.mem_append.mp h2).elim (hA kv) (hB kv)) (hC kv)
        obtain ⟨h1, h2, h3⟩ := styleFree_filterMaps _ hno3
        rw [mergeFinalProps_lookup, hE3, h1, h2, h3]
        simp [show mergeStyles [] = none from rfl]
      rw [hnested, hdirect]
      trivial
    · by_cases hkc : k = "className"
      · subst hkc
        rw [if_neg (by decide : ¬("className" = "style")), if_pos rfl] at hABk
        by_cases h2 : (A ++ B).filterMap (fnAdd "className") = []
        · rw [if_pos h2] at hABk
          cases hcn : cn grp ((A ++ B).filterMap classAdd) with
          | some s =>
            have hABs : AB.lookup "className" = some (PVal.strV s) := by
              rw [hABk, hcn]
            have hfAB : AB.filterMap (fnAdd "className") = [] := by
              have h1 := filterMap_keyOnly_some "className" (fnAdd "className")
                (fun kv h => fnAdd_ne_key _ kv h) AB hndAB _ hABs
              rw [fnAdd_className_str s] at h1
              exact h1
            have hcAB : AB.filterMap classAdd = [s] := by
              have h1 := filterMap_keyOnly_some "className" classAdd
                (fun kv h => classAdd_none_of_key kv.1 kv.2 h) AB hndAB _ hABs
              rw [classAdd_self_str s] at h1
              exact h1
            have hpAB : AB.filterMap (propWrite "className") = [] := by
              have h1 := filterMap_keyOnly_some "className"
                (propWrite "className") (fun kv h => propWrite_ne_key _ kv h)
                AB hndAB _ hABs
              rw [propWrite_className_str s] at h1
              exact h1
            apply optObsEq_of_eq
            rw [mergeFinalProps_lookup, hEN]
            rw [mergeFinalProps_lookup, hE3]
            rw [if_neg (by decide : ¬("className" = "style"))]
            rw [if_neg (by decide : ¬("className" = "style"))]
            rw [if_pos rfl, if_pos rfl]
            rw [List.filterMap_append AB C (fnAdd "className"),
              List.filterMap_append AB C classAdd,
              List.filterMap_append AB C (propWrite "className"),
              List.filterMap_append (A ++ B) C (fnAdd "className"),
              List.filterMap_append (A ++ B) C classAdd,
              List.filterMap_append (A ++ B) C (propWrite "className"),
              hfAB, hcAB, hpAB, h2]
            rw [List.singleton_append]
            rw [show cn grp (s :: C.filterMap classAdd) =
                cn grp ((A ++ B).filterMap classAdd ++ C.filterMap classAdd)
              from cn_cons_of_some grp _ _ s hcn]
            by_cases hfC : C.filterMap (fnAdd "className") = []
            · rw [if_pos (by simp [hfC]), if_pos (by simp [hfC])]
              cases hsc : cn grp ((A ++ B).filterMap classAdd ++
                  C.filterMap classAdd) with
              | some t => rfl
              | none =>
                exfalso
                rw [cn_eq_none_iff, classTokens_append] at hsc
                have h0 : classTokens ((A ++ B).filterMap classAdd) = [] :=
                  (List.append_eq_nil.mp hsc).1
                exact Option.noConfusion
                  (((cn_eq_none_iff grp _).mpr h0).symm.trans hcn)
            · rw [if_neg (by simp [hfC]), if_neg (by simp [hfC])]
          | none =>
            have h0 : classTokens ((A ++ B).filterMap classAdd) = [] :=
              (cn_eq_none_iff grp _).mp hcn
            cases hpw2 : ((A ++ B).filterMap
                (propWrite "className")).getLast? with
            | none =>
              have hABnone : AB.lookup "className" = none := by
                rw [hABk, hcn, hpw2]
              have hpw2nil : (A ++ B).filterMap (propWrite "className") = [] :=
                List.getLast?_eq_none_iff.mp hpw2
              have hfAB := filterMap_keyOnly_none "className"
                (fnAdd "className") (fun kv h => fnAdd_ne_key _ kv h)
                AB hABnone
              have hcAB := filterMap_keyOnly_none "className" classAdd
                (fun kv h => classAdd_none_of_key kv.1 kv.2 h) AB hABnone
              have hpAB := filterMap_keyOnly_none "className"
                (propWrite "className") (fun kv h => propWrite_ne_key _ kv h)
                AB hABnone
              apply optObsEq_of_eq
              rw [mergeFinalProps_lookup, hEN]
              rw [mergeFinalProps_lookup, hE3]
              rw [if_neg (by decide : ¬("className" = "style"))]
              rw [if_neg (by decide : ¬("className" = "style"))]
              rw [if_pos rfl, if_pos rfl]
              rw [List.filterMap_append AB C (fnAdd "className"),
                List.filterMap_append AB C classAdd,
                List.filterMap_append AB C (propWrite "className"),
                List.filterMap_append (A ++ B) C (fnAdd "className"),
                List.filterMap_append (A ++ B) C classAdd,
                List.filterMap_append (A ++ B) C (propWrite "className"),
                hfAB, hcAB, hpAB, h2, hpw2nil]
              rw [show cn grp (([] : List String) ++ C.filterMap classAdd) =
                  cn grp ((A ++ B).filterMap classAdd ++ C.filterMap classAdd)
                from by
                  rw [List.nil_append]
                  exact cn_append_left_nil grp _ _ hcn]
            | some w =>
              have hABw : AB.lookup "className" = some w := by
                rw [hABk, hcn, hpw2]
              have hwmem : w ∈ (A ++ B).filterMap (propWrite "className") :=
                getLast?_mem hpw2
              obtain ⟨kv, hkvmem, hkvw⟩ := List.mem_filterMap.mp hwmem
              have hu : w ≠ PVal.undef :=
                propWrite_ne_undef "className" kv.1 kv.2 w hkvw
              obtain ⟨hf, hstr0⟩ :=
                propWrite_some_shape "className" kv.1 kv.2 w hkvw
              have hstr := hstr0 rfl
              have hfAB : AB.filterMap (fnAdd "className") = [] := by
                have h1 := filterMap_keyOnly_some "className"
                  (fnAdd "className") (fun kv h => fnAdd_ne_key _ kv h)
                  AB hndAB _ hABw
                rw [fnAdd_none_of_asFn "className" "className" w hf] at h1
                exact h1
              have hcAB : AB.filterMap classAdd = [] := by
                have h1 := filterMap_keyOnly_some "className" classAdd
                  (fun kv h => classAdd_none_of_key kv.1 kv.2 h) AB hndAB
                  _ hABw
                rw [classAdd_none_of_not_str "className" w hstr] at h1
                exact h1
              have hpAB : AB.filterMap (propWrite "className") = [w] := by
                have h1 := filterMap_keyOnly_some "className"
                  (propWrite "className") (fun kv h => propWrite_ne_key _ kv h)
                  AB hndAB _ hABw
                rw [propWrite_className_self w hu hf hstr] at h1
                exact h1
              apply optObsEq_of_eq
              rw [mergeFinalProps_lookup, hEN]
              rw [mergeFinalProps_lookup, hE3]
              rw [if_neg (by decide : ¬("className" = "style"))]
              rw [if_neg (by decide : ¬("className" = "style"))]
              rw [if_pos rfl, if_pos rfl]
              rw [List.filterMap_append AB C (fnAdd "className"),
                List.filterMap_append AB C classAdd,
                List.filterMap_append AB C (propWrite "className"),
                List.filterMap_append (A ++ B) C (fnAdd "className"),
                List.filterMap_append (A ++ B) C classAdd,
                List.filterMap_append (A ++ B) C (propWrite "className"),
                hfAB, hcAB, hpAB, h2]
              rw [show cn grp (([] : List String) ++ C.filterMap classAdd) =
                  cn grp ((A ++ B).filterMap classAdd ++ C.filterMap classAdd)
                from by
                  rw [List.nil_append]
                  exact cn_append_left_nil grp _ _ hcn]
              by_cases hfC : C.filterMap (fnAdd "className") = []
              · rw [if_pos (by simp [hfC]), if_pos (by simp [hfC])]
                cases hsc : cn grp ((A ++ B).filterMap classAdd ++
                    C.filterMap classAdd) with
                | some t => rfl
                | none =>
                  show ([w] ++ C.filterMap (propWrite "className")).getLast? =
                    ((A ++ B).filterMap (propWrite "className") ++
                      C.filterMap (propWrite "className")).getLast?
                  rw [List.getLast?_append, List.getLast?_append, hpw2]
                  rfl
              · rw [if_neg (by simp [hfC]), if_neg (by simp [hfC])]
        · rw [if_neg h2] at hABk
          have hfAB : AB.filterMap (fnAdd "className") =
              [composeFunctions (((A ++ B).filterMap
                (fnAdd "className")).map PVal.fnV)] := by
            have h1 := filterMap_keyOnly_some "className" (fnAdd "className")
              (fun kv h => fnAdd_ne_key _ kv h) AB hndAB _ hABk
            rw [fnAdd_self_fnV "className" _ (by decide)] at h1
            exact h1
          have hn : (mergeFinalProps grp
              [some AB, some C]).lookup "className" =
              some (PVal.fnV (composeFunctions
                ((composeFunctions (((A ++ B).filterMap
                    (fnAdd "className")).map PVal.fnV) ::
                  C.filterMap (fnAdd "className")).map PVal.fnV))) := by
            rw [mergeFinalProps_lookup, hEN,
              List.filterMap_append AB C (fnAdd "className"), hfAB]
            rw [if_neg (by simp)]
            rw [List.singleton_append]
          have hd : (mergeFinalProps grp
              [some A, some B, some C]).lookup "className" =
              some (PVal.fnV (composeFunctions
                (((A ++ B).filterMap (fnAdd "className") ++
                  C.filterMap (fnAdd "className")).map PVal.fnV))) := by
            rw [mergeFinalProps_lookup, hE3,
              List.filterMap_append (A ++ B) C (fnAdd "className")]
            rw [if_neg (fun hcc => h2 (List.append_eq_nil.mp hcc).1)]
          rw [hn, hd]
          intro σ env s args
          exact cf_group_runEq env ((A ++ B).filterMap (fnAdd "className"))
            (C.filterMap (fnAdd "className")) h2 s args
      · rw [if_neg hks, if_neg hkc] at hABk
        by_cases h2 : (A ++ B).filterMap (fnAdd k) = []
        · rw [if_pos h2] at hABk
          cases hpw2 : ((A ++ B).filterMap (propWrite k)).getLast? with
          | none =>
            have hABnone : AB.lookup k = none := by
              rw [hABk, hpw2]
            have hpw2nil : (A ++ B).filterMap (propWrite k) = [] :=
              List.getLast?_eq_none_iff.mp hpw2
            have hfAB := filterMap_keyOnly_none k (fnAdd k)
              (fun kv h => fnAdd_ne_key _ kv h) AB hABnone
            have hpAB := filterMap_keyOnly_none k (propWrite k)
              (fun kv h => propWrite_ne_key _ kv h) AB hABnone
            apply optObsEq_of_eq
            rw [mergeFinalProps_lookup, hEN]
            rw [mergeFinalProps_lookup, hE3]
            rw [if_neg hks]
            rw [if_neg hks]
            rw [if_neg hkc]
            rw [if_neg hkc]
            rw [List.filterMap_append AB C (fnAdd k),
              List.filterMap_append AB C (propWrite k),
              List.filterMap_append (A ++ B) C (fnAdd k),
              List.filterMap_append (A ++ B) C (propWrite k),
              hfAB, hpAB, h2, hpw2nil]
          | some w =>
            have hABw : AB.lookup k = some w := by
              rw [hABk, hpw2]
            have hwmem : w ∈ (A ++ B).filterMap (propWrite k) :=
              getLast?_mem hpw2
            obtain ⟨kv, hkvmem, hkvw⟩ := List.mem_filterMap.mp hwmem
            have hu : w ≠ PVal.undef := propWrite_ne_undef k kv.1 kv.2 w hkvw
            obtain ⟨hf, _⟩ := propWrite_some_shape k kv.1 kv.2 w hkvw
            have hfAB : AB.filterMap (fnAdd k) = [] := by
              have h1 := filterMap_keyOnly_some k (fnAdd k)
                (fun kv h => fnAdd_ne_key _ kv h) AB hndAB _ hABw
              rw [fnAdd_none_of_asFn k k w hf] at h1
              exact h1
            have hpAB : AB.filterMap (propWrite k) = [w] := by
              have h1 := filterMap_keyOnly_some k (propWrite k)
                (fun kv h => propWrite_ne_key _ kv h) AB hndAB _ hABw
              rw [propWrite_self k w hks hkc hu hf] at h1
              exact h1
            apply optObsEq_of_eq
            rw [mergeFinalProps_lookup, hEN]
            rw [mergeFinalProps_lookup, hE3]
            rw [if_neg hks]
            rw [if_neg hks]
            rw [if_neg hkc]
            rw [if_neg hkc]
            rw [List.filterMap_append AB C (fnAdd k),
              List.filterMap_append AB C (propWrite k),
              List.filterMap_append (A ++ B) C (fnAdd k),
              List.filterMap_append (A ++ B) C (propWrite k),
              hfAB, hpAB, h2]
            by_cases hfC : C.filterMap (fnAdd k) = []
            · rw [if_pos (by simp [hfC]), if_pos (by simp [hfC])]
              rw [List.getLast?_append, List.getLast?_append, hpw2]
              rfl
            · rw [if_neg (by simp [hfC]), if_neg (by simp [hfC])]
        · rw [if_neg h2] at hABk
          have hfAB : AB.filterMap (fnAdd k) =
              [composeFunctions (((A ++ B).filterMap (fnAdd k)).map
                PVal.fnV)] := by
            have h1 := filterMap_keyOnly_some k (fnAdd k)
              (fun kv h => fnAdd_ne_key _ kv h) AB hndAB _ hABk
            rw [fnAdd_self_fnV k _ hks] at h1
            exact h1
          have hpAB : AB.filterMap (propWrite k) = [] := by
            have h1 := filterMap_keyOnly_some k (propWrite k)
              (fun kv h => propWrite_ne_key _ kv h) AB hndAB _ hABk
            rw [propWrite_self_fnV k _ hks] at h1
            exact h1
          have hn : (mergeFinalProps grp [some AB, some C]).lookup k =
              some (PVal.fnV (composeFunctions
                ((composeFunctions (((A ++ B).filterMap (fnAdd k)).map
                    PVal.fnV) :: C.filterMap (fnAdd k)).map PVal.fnV))) := by
            rw [mergeFinalProps_lookup, hEN, List.filterMap_append, hfAB]
            rw [if_neg (by simp)]
            rw [List.singleton_append]
          have hd : (mergeFinalProps grp [some A, some B, some C]).lookup k =
              some (PVal.fnV (composeFunctions
                (((A ++ B).filterMap (fnAdd k) ++
                  C.filterMap (fnAdd k)).map PVal.fnV))) := by
            rw [mergeFinalProps_lookup, hE3, List.filterMap_append]
            rw [if_neg (fun hcc => h2 (List.append_eq_nil.mp hcc).1)]
          rw [hn, hd]
          intro σ env s args
          exact cf_group_runEq env ((A ++ B).filterMap (fnAdd k))
            (C.filterMap (fnAdd k)) h2 s args
  · intro p v hps hpc hnofn hlast
    have hfn : (mergeEntries [some A, some B, some C]).filterMap (fnAdd p) =
        [] := by
      rw [hE3, List.filterMap_eq_nil_iff]
      intro kv hkv
      by_cases hk : kv.1 = p
      · obtain ⟨a, w⟩ := kv
        exact fnAdd_none_of_asFn p a w (hnofn (a, w) hkv hk)
      · exact fnAdd_ne_key p kv hk
    have hcong : (A ++ B ++ C).filterMap (propWrite p) =
        (A ++ B ++ C).filterMap
          (fun kv => if kv.1 = p ∧ kv.2 ≠ PVal.undef then some kv.2
            else none) := by
      apply List.filterMap_congr
      intro kv hkv
      obtain ⟨a, w⟩ := kv
      by_cases hk : a = p
      · subst hk
        by_cases hu : w = PVal.undef
        · subst hu
          simp [propWrite]
        · rw [propWrite_self a w hps hpc hu (hnofn (a, w) hkv rfl)]
          simp [hu]
      · rw [propWrite_ne_key p (a, w) hk]
        simp [hk]
    rw [mergeFinalProps_simple_lookup grp _ p hps hpc hfn, hE3, hcong]
    exact hlast

/-- C8 witness: the amended associativity applied to three concrete
style-free fragments exercising the class-name channel, the function
channel and a plain prop collision. -/
theorem mergeFinalProps_assoc_amended_witness :
    noStyleKey [("className", PVal.strV "a b"), ("id", PVal.strV "x")] ∧
    noStyleKey [("id", PVal.strV "y"), ("onClick", PVal.fnV (FnRep.atom 0))] ∧
    noStyleKey [("className", PVal.strV "c"),
      ("onClick", PVal.fnV (FnRep.atom 1))] ∧
    (FieldEqv
      (mergeFinalProps (fun c => c)
        [some (mergeFinalProps (fun c => c)
          [some [("className", PVal.strV "a b"), ("id", PVal.strV "x")],
            some [("id", PVal.strV "y"),
              ("onClick", PVal.fnV (FnRep.atom 0))]]),
          some [("className", PVal.strV "c"),
            ("onClick", PVal.fnV (FnRep.atom 1))]])
      (mergeFinalProps (fun c => c)
        [some [("className", PVal.strV "a b"), ("id", PVal.strV "x")],
          some [("id", PVal.strV "y"), ("onClick", PVal.fnV (FnRep.atom 0))],
          some [("className", PVal.strV "c"),
            ("onClick", PVal.fnV (FnRep.atom 1))]]) ∧
    (∀ p v, p ≠ "style" → p ≠ "className" →
      (∀ kv ∈ ([("className", PVal.strV "a b"), ("id", PVal.strV "x")] ++
          [("id", PVal.strV "y"), ("onClick", PVal.fnV (FnRep.atom 0))] ++
          [("className", PVal.strV "c"),
            ("onClick", PVal.fnV (FnRep.atom 1))]),
        kv.1 = p → kv.2.asFn = none) →
      (([("className", PVal.strV "a b"), ("id", PVal.strV "x")] ++
          [("id", PVal.strV "y"), ("onClick", PVal.fnV (FnRep.atom 0))] ++
          [("className", PVal.strV "c"),
            ("onClick", PVal.fnV (FnRep.atom 1))]).filterMap
          (fun kv => if kv.1 = p ∧ kv.2 ≠ PVal.undef then some kv.2
            else none)).getLast? = some v →
      (mergeFinalProps (fun c => c)
        [some [("className", PVal.strV "a b"), ("id", PVal.strV "x")],
          some [("id", PVal.strV "y"), ("onClick", PVal.fnV (FnRep.atom 0))],
          some [("className", PVal.strV "c"),
            ("onClick", PVal.fnV (FnRep.atom 1))]]).lookup p = some v)) :=
  ⟨by unfold noStyleKey; decide, by unfold noStyleKey; decide,
    by unfold noStyleKey; decide,
    mergeFinalProps_assoc_amended (fun c => c)
      [("className", PVal.strV "a b"), ("id", PVal.strV "x")]
      [("id", PVal.strV "y"), ("onClick", PVal.fnV (FnRep.atom 0))]
      [("className", PVal.strV "c"), ("onClick", PVal.fnV (FnRep.atom 1))]
      (by unfold noStyleKey; decide) (by unfold noStyleKey; decide)
      (by unfold noStyleKey; decide)⟩

end BetterStyled
